import Mathlib

/-!
Verification of the Groc schedule matching engine
(`google/appengine/cron/groctimespecification.py`).

The Python module computes, for a parsed cron-like schedule, the next
occurrence time(s) after a given start instant.  Two variants exist:
`IntervalTimeSpecification` (fixed duration repetition) and
`SpecificTimeSpecification` (calendar constrained repetition with
ordinals / weekdays / months / monthdays / time-of-day and an optional
timezone).

This file gives a shallow embedding of that module and proves the
specification claims about it.  Python `datetime` objects are embedded
as a record of `Nat` fields; Python sets as `Finset Nat`; the infinite
search loop of `SpecificTimeSpecification.GetMatch` is embedded with an
explicit fuel parameter (the Python loop runs unboundedly; `fuelOut`
marks "did not return within `fuel` candidate months").  The pytz
timezone object is embedded as an injected capability record, following
the exception interface the code relies on.
-/

namespace Groc

/-! ## Proleptic Gregorian calendar arithmetic

These model the parts of Python's `calendar` / `datetime` libraries the
module uses: `calendar.monthrange` (weekday of day 1, Monday=0, and the
number of days of a month) and `datetime.timedelta` addition.
-/

/-- Gregorian leap year test (`calendar.isleap`). -/
def isLeap (y : Nat) : Bool :=
  y % 4 == 0 && (y % 100 != 0 || y % 400 == 0)

/-- Number of days of month `m` of year `y` (second component of
`calendar.monthrange`). -/
def monthLen (y m : Nat) : Nat :=
  if m = 2 then (if isLeap y then 29 else 28)
  else if m = 4 ∨ m = 6 ∨ m = 9 ∨ m = 11 then 30 else 31

/-- Days of year `y` that precede month `m` (so `daysBeforeMonth y 1 = 0`). -/
def daysBeforeMonth (y : Nat) : Nat → Nat
  | 0 => 0
  | m + 1 => if m = 0 then 0 else daysBeforeMonth y m + monthLen y m

/-- Days before January 1st of year `y` in the proleptic Gregorian
calendar (year 1 is the first year, as for Python `datetime`). -/
def daysBeforeYear (y : Nat) : Nat :=
  365 * (y - 1) + ((y - 1) / 4 + (y - 1) / 400) - (y - 1) / 100

/-- Proleptic Gregorian ordinal of a date: `ordinalDay 1 1 1 = 1`
(as `datetime.date.toordinal`). -/
def ordinalDay (y m d : Nat) : Nat :=
  daysBeforeYear y + daysBeforeMonth y m + d

/-- Weekday of a date with Monday = 0 .. Sunday = 6
(Python `datetime.date.weekday`; January 1st of year 1 is a Monday). -/
def weekdayMon0 (y m d : Nat) : Nat :=
  (ordinalDay y m d - 1) % 7

/-- Weekday of a date with Sunday = 0 .. Saturday = 6 (the convention of
the Groc schedule language). -/
def weekdaySun0 (y m d : Nat) : Nat :=
  ordinalDay y m d % 7

/-! ## Datetimes -/

/-- Embedding of a (naive) Python `datetime.datetime`. -/
structure DateTime where
  year : Nat
  month : Nat
  day : Nat
  hour : Nat
  minute : Nat
  second : Nat
  microsecond : Nat
deriving Repr, DecidableEq

/-- The field-range invariant every actual Python `datetime` object
satisfies (its constructor validates them). -/
def DateTime.Valid (d : DateTime) : Prop :=
  1 ≤ d.year ∧ 1 ≤ d.month ∧ d.month ≤ 12 ∧ 1 ≤ d.day ∧
    d.day ≤ monthLen d.year d.month ∧ d.hour ≤ 23 ∧ d.minute ≤ 59 ∧
    d.second ≤ 59 ∧ d.microsecond ≤ 999999

instance (d : DateTime) : Decidable d.Valid := by
  unfold DateTime.Valid; infer_instance

/-- Linearization of the time-of-day part of a datetime, in microseconds. -/
def timeKey (h m s us : Nat) : Nat :=
  ((h * 60 + m) * 60 + s) * 1000000 + us

/-- Time-of-day key of a datetime. -/
def DateTime.tKey (d : DateTime) : Nat :=
  timeKey d.hour d.minute d.second d.microsecond

/-- Linearization of a whole datetime; for `Valid` datetimes the order
of keys is exactly Python's lexicographic `datetime` order. -/
def DateTime.key (d : DateTime) : Nat :=
  ((d.year * 13 + d.month) * 32 + d.day) * 86400000000 + d.tKey

/-- Chronological position of the calendar month of a datetime. -/
def DateTime.monthKey (d : DateTime) : Nat :=
  d.year * 12 + d.month

/-- Absolute instant of a datetime in microseconds since the epoch
`0001-01-01T00:00:00`; the quantity Python `timedelta` arithmetic
shifts. -/
def DateTime.instant (d : DateTime) : Nat :=
  (ordinalDay d.year d.month d.day - 1) * 86400000000 + d.tKey

/-! ## `timedelta` addition

`datetime + datetime.timedelta(minutes=k)` for `k ≥ 0`, implemented by
normalizing minutes and hours and then stepping whole days through the
calendar. -/

/-- The day after the date of `d` (time-of-day fields unchanged). -/
def nextDay (d : DateTime) : DateTime :=
  if d.day < monthLen d.year d.month then { d with day := d.day + 1 }
  else if d.month < 12 then { d with day := 1, month := d.month + 1 }
  else { d with day := 1, month := 1, year := d.year + 1 }

/-- Add `n` days to a datetime. -/
def addDays (d : DateTime) : Nat → DateTime
  | 0 => d
  | n + 1 => addDays (nextDay d) n

/-- `d + datetime.timedelta(minutes=k)`. -/
def addMinutes (d : DateTime) (k : Nat) : DateTime :=
  let total := d.minute + k
  let hcarry := d.hour + total / 60
  addDays { d with minute := total % 60, hour := hcarry % 24 } (hcarry / 24)

/-! ## The time-specification classes -/

/-- Embedding of a Python `datetime.time` with zero seconds, as built by
`SpecificTimeSpecification.__init__` from the `"HH:MM"` time string
(`datetime.time(int(hourstr), int(minutestr))`; the string split is
abstracted to a pre-split pair). -/
structure TimeOfDay where
  hour : Nat
  minute : Nat
deriving Repr, DecidableEq

/-- Time-of-day key of a `datetime.time` value with zero
seconds/microseconds; key order is Python `time` order. -/
def TimeOfDay.tKey (t : TimeOfDay) : Nat :=
  timeKey t.hour t.minute 0 0

/-- The errors a `GetMatch` call of the embedding can produce.
`fuelOut` is the embedding's marker for "the unbounded Python search
loop did not return within the given number of candidate months". -/
inductive LocalizeError where
  | nonExistent
  | ambiguous
  | indexError
deriving Repr, DecidableEq

inductive GError where
  /-- `self.months` is empty, so the local variable `months` is never
  assigned and `months.next()` raises `UnboundLocalError`. -/
  | unboundLocalMonths
  /-- Embedding artifact: search fuel exhausted. -/
  | fuelOut
  /-- A `localize` exception not caught by the
  `except (NonExistentTimeError, IndexError)` clauses. -/
  | uncaughtLocalize (e : LocalizeError)
  /-- All 24 probes failed, leaving `out` naive, and
  `out.astimezone(pytz.utc)` raises `ValueError`. -/
  | naiveAstimezone
deriving Repr, DecidableEq

/-- A localized (timezone aware) datetime: the naive local fields
together with their UTC conversion (`astimezone(pytz.utc)`). -/
structure Localized where
  localDT : DateTime
  utcDT : DateTime
deriving Repr, DecidableEq

/-- Embedding of a `pytz` timezone object, as an injected capability:
`localize` either returns a localized datetime or signals one of the
exceptions the code distinguishes, and `toLocal` is the
`astimezone(tz).replace(tzinfo=None)` conversion applied to the start. -/
structure PyTimezone where
  localize : DateTime → Except LocalizeError Localized
  toLocal : DateTime → DateTime

/-- Embedding of `SpecificTimeSpecification` (post construction).  Each
Python set field is embedded as the list of its elements (a set's
iteration snapshot, duplicate-free for an actual Python set; the
theorems carry `Nodup` hypotheses where that matters).  All the
operations the code performs on these sets - iteration followed by
sorting, sorting, emptiness tests - depend only on the elements. -/
structure SpecificTimeSpecification where
  ordinals : List Nat
  weekdays : List Nat
  months : List Nat
  monthdays : List Nat
  time : TimeOfDay
deriving Repr, DecidableEq

/-- `SpecificTimeSpecification.__init__`: `none` arguments model
omitted (`None` / defaulted) parameters; supplying both `weekdays` and
`monthdays` raises `ValueError`.  (The timezone argument only selects
which `GetMatch` path runs and is modeled at the `GetMatch` level.) -/
def SpecificTimeSpecification.init (ordinals weekdays months monthdays :
    Option (List Nat)) (timestr : Option TimeOfDay) :
    Except String SpecificTimeSpecification :=
  if weekdays.isSome ∧ monthdays.isSome then
    .error "cant supply both monthdays and weekdays"
  else
    .ok { ordinals := ordinals.getD (List.range' 1 5)
          weekdays := weekdays.getD (List.range 7)
          months := months.getD (List.range' 1 12)
          monthdays := monthdays.getD []
          time := timestr.getD ⟨0, 0⟩ }

/-- `SpecificTimeSpecification._MatchingDays`.  `calendar.monthrange`
gives the Monday=0 weekday of day 1 and the last day; the code converts
the former to Sunday=0 by `(start_day + 1) % 7`.  Days are computed in
`Int` because Python's `%` on possibly-negative operands is the
euclidean `Int.emod`.  Python's `sorted` is embedded as insertion sort. -/
def MatchingDays (ordinals weekdays : List Nat) (year month : Nat) :
    List Int :=
  let start_day := (weekdayMon0 year month 1 + 1) % 7
  let last_day := monthLen year month
  let out_days := ordinals.flatMap (fun (ordinal : Nat) =>
    weekdays.filterMap (fun (weekday : Nat) =>
      let day : Int :=
        ((weekday : Int) - (start_day : Int)) % 7 + 1 + 7 * ((ordinal : Int) - 1)
      if day ≤ (last_day : Int) then some day else none))
  out_days.insertionSort (· ≤ ·)

/-- State of the `_NextMonthGenerator` generator between two `yield`s:
the `potential` list, the last produced value `after`, and the wrap
counter. -/
structure MonthGenState where
  potential : List Nat
  after : Nat
  wrapcount : Nat
deriving Repr, DecidableEq

/-- One iteration of the `while True` body of `_NextMonthGenerator`:
filter `potential` down to values above `after`; on exhaustion bump the
wrap counter and reset to the full sorted `matches`; yield the head.
(`matches.headD 0` stands for Python's `potential[0]`, which would raise
`IndexError` on an empty `matches`; all uses have non-empty months.) -/
def nextMonthStep (ms : List Nat) (s : MonthGenState) :
    (Nat × Nat) × MonthGenState :=
  match s.potential.filter (fun x => decide (s.after < x)) with
  | [] =>
      ((ms.headD 0, s.wrapcount + 1),
        ⟨ms, ms.headD 0, s.wrapcount + 1⟩)
  | x :: rest => ((x, s.wrapcount), ⟨x :: rest, x, s.wrapcount⟩)

/-- The untrimmed day list of a candidate month: from `monthdays` when
that set is non-empty (`sorted(x for x in self.monthdays if x <=
last_day)`), otherwise from `_MatchingDays`. -/
def dayMatchesRaw (spec : SpecificTimeSpecification) (year month : Nat) :
    List Int :=
  if spec.monthdays ≠ [] then
    ((spec.monthdays.filter
        (fun x => x ≤ monthLen year month)).insertionSort
      (· ≤ ·)).map (fun (x : Nat) => (x : Int))
  else
    MatchingDays spec.ordinals spec.weekdays year month

/-- The same-month trimming of the day list: keep days at or after the
start's day (`[x for x in day_matches if x >= start_time.day]`), then
the `while day_matches and day_matches[0] == start_time.day and
start_time.time() >= self.time: day_matches.pop(0)` loop, whose
time-of-day condition does not change across iterations. -/
def trimDayMatches (start_time : DateTime) (t : TimeOfDay)
    (day_matches : List Int) : List Int :=
  (day_matches.filter (fun x => decide ((start_time.day : Int) ≤ x))).dropWhile
    (fun x => x == (start_time.day : Int) && decide (t.tKey ≤ start_time.tKey))

/-- The body of the `while True` search loop of
`SpecificTimeSpecification.GetMatch`, recursing on explicit fuel.  Each
iteration draws `(month, yearwraps)` from the month generator, builds
the day list (from `monthdays` when non-empty, else `_MatchingDays`),
trims it when the candidate month is the start's month (drop days before
the start day; then the `while ... pop(0)` drops leading entries equal
to the start day when the start's time-of-day has already reached
`self.time`), and returns the naive candidate datetime for the first
remaining day.  `d.toNat` stands for the Python `int` day (all produced
days are ≥ 1 under the documented field ranges). -/
def GetMatchAux (spec : SpecificTimeSpecification) (start_time : DateTime)
    (ms : List Nat) : MonthGenState → Nat → Except GError DateTime
  | _, 0 => .error .fuelOut
  | gen, fuel + 1 =>
    let step := nextMonthStep ms gen
    let month := step.1.1
    let yearwraps := step.1.2
    let candidate_month : DateTime :=
      { start_time with day := 1, month := month,
                        year := start_time.year + yearwraps }
    let day_matches : List Int :=
      dayMatchesRaw spec candidate_month.year month
    let day_matches : List Int :=
      if candidate_month.year = start_time.year ∧
          candidate_month.month = start_time.month then
        trimDayMatches start_time spec.time day_matches
      else day_matches
    match day_matches with
    | [] => GetMatchAux spec start_time ms step.2 fuel
    | d :: _ =>
        .ok { candidate_month with day := d.toNat, hour := spec.time.hour,
                                   minute := spec.time.minute, second := 0,
                                   microsecond := 0 }

/-- `SpecificTimeSpecification.GetMatch` for a specification without a
timezone (`self.timezone is None`): `start_time` is `start` itself; the
month generator is seeded with `potential = sorted(months)`,
`after = start_time.month - 1`, `wrapcount = 0`. -/
def SpecificTimeSpecification.GetMatch (spec : SpecificTimeSpecification)
    (start : DateTime) (fuel : Nat) : Except GError DateTime :=
  let start_time := start
  if spec.months = [] then .error .unboundLocalMonths
  else
    GetMatchAux spec start_time (spec.months.insertionSort (· ≤ ·))
      ⟨spec.months.insertionSort (· ≤ ·), start_time.month - 1, 0⟩ fuel

/-- One probe step of the DST recovery loop:
`out.replace(minute=1) + datetime.timedelta(minutes=60)`. -/
def probeStep (out : DateTime) : DateTime :=
  addMinutes { out with minute := 1 } 60

/-- The `for _ in range(24)` recovery loop: repeatedly probe forward;
a successful `localize` breaks out and the result is converted to UTC;
`NonExistentTimeError` / `IndexError` continue the loop; any other
exception (`AmbiguousTimeError`) propagates; after 24 failures `out` is
still naive and `out.astimezone(pytz.utc)` raises. -/
def probeLoop (tz : PyTimezone) (out : DateTime) :
    Nat → Except GError DateTime
  | 0 => .error .naiveAstimezone
  | n + 1 =>
    let out' := probeStep out
    match tz.localize out' with
    | .ok z => .ok z.utcDT
    | .error .nonExistent => probeLoop tz out' n
    | .error .indexError => probeLoop tz out' n
    | .error e => .error (.uncaughtLocalize e)

/-- The timezone-resolution tail of `GetMatch` (lines 287-298): try to
localize the naive candidate; on `NonExistentTimeError` / `IndexError`
run the bounded probe loop; convert the localized result to UTC. -/
def resolveTz (tz : PyTimezone) (out : DateTime) : Except GError DateTime :=
  match tz.localize out with
  | .ok z => .ok z.utcDT
  | .error .nonExistent => probeLoop tz out 24
  | .error .indexError => probeLoop tz out 24
  | .error e => .error (.uncaughtLocalize e)

/-- `SpecificTimeSpecification.GetMatch` for a specification with a
timezone: the start is converted to naive local time, the same search
runs, and the naive candidate is resolved through the timezone. -/
def SpecificTimeSpecification.GetMatchTz (spec : SpecificTimeSpecification)
    (tz : PyTimezone) (start : DateTime) (fuel : Nat) :
    Except GError DateTime :=
  let start_time := tz.toLocal start
  if spec.months = [] then .error .unboundLocalMonths
  else
    match GetMatchAux spec start_time (spec.months.insertionSort (· ≤ ·))
        ⟨spec.months.insertionSort (· ≤ ·), start_time.month - 1, 0⟩ fuel with
    | .error e => .error e
    | .ok out => resolveTz tz out

/-- The module constants `HOURS = 'hours'`, `MINUTES = 'minutes'`. -/
def HOURS : String := "hours"

def MINUTES : String := "minutes"

/-- Embedding of `IntervalTimeSpecification`. -/
structure IntervalTimeSpecification where
  interval : Nat
  period : String
deriving Repr, DecidableEq

/-- `IntervalTimeSpecification.GetMatch`:
`t + timedelta(hours=interval)` when `period == HOURS`, else
`t + timedelta(minutes=interval)` (an hour being 60 minutes). -/
def IntervalTimeSpecification.GetMatch (spec : IntervalTimeSpecification)
    (t : DateTime) : DateTime :=
  if spec.period = HOURS then addMinutes t (spec.interval * 60)
  else addMinutes t spec.interval

/-- The two concrete variants of the abstract `TimeSpecification`. -/
inductive TimeSpecification where
  | interval (i : IntervalTimeSpecification)
  | specific (s : SpecificTimeSpecification)
deriving DecidableEq

/-- Dispatch of the polymorphic `GetMatch` (timezone-less path for the
specific variant). -/
def TimeSpecification.GetMatch (ts : TimeSpecification) (start : DateTime)
    (fuel : Nat) : Except GError DateTime :=
  match ts with
  | .interval i => .ok (i.GetMatch start)
  | .specific s => s.GetMatch start fuel

/-- `TimeSpecification.GetMatches`: iterate `GetMatch` `n` times,
feeding each result back as the new start, collecting the results in
order. -/
def TimeSpecification.GetMatches (ts : TimeSpecification) (start : DateTime)
    (n : Nat) (fuel : Nat) : Except GError (List DateTime) :=
  match n with
  | 0 => .ok []
  | n + 1 =>
    match ts.GetMatch start fuel with
    | .error e => .error e
    | .ok d =>
      match ts.GetMatches d n fuel with
      | .error e => .error e
      | .ok rest => .ok (d :: rest)

end Groc

deriving instance DecidableEq for Except

namespace Groc

/-! ## Arithmetic facts about the calendar layer -/

theorem monthLen_le (y m : Nat) : monthLen y m ≤ 31 := by
  unfold monthLen
  split
  · split <;> omega
  · split <;> omega

theorem monthLen_ge (y m : Nat) : 28 ≤ monthLen y m := by
  unfold monthLen
  split
  · split <;> omega
  · split <;> omega

theorem isLeap_iff (y : Nat) :
    isLeap y = true ↔ y % 4 = 0 ∧ (y % 100 ≠ 0 ∨ y % 400 = 0) := by
  simp [isLeap]

theorem daysBeforeMonth_one (y : Nat) : daysBeforeMonth y 1 = 0 := rfl

theorem daysBeforeMonth_succ (y m : Nat) (h : 1 ≤ m) :
    daysBeforeMonth y (m + 1) = daysBeforeMonth y m + monthLen y m := by
  conv_lhs => rw [daysBeforeMonth]
  rw [if_neg (by omega)]

theorem daysBeforeMonth_13 (y : Nat) :
    daysBeforeMonth y 13 = if isLeap y then 366 else 365 := by
  by_cases h : isLeap y = true <;> simp [daysBeforeMonth, monthLen, h]

theorem daysBeforeMonth_mono (y : Nat) {m m' : Nat} (h1 : 1 ≤ m)
    (h : m ≤ m') : daysBeforeMonth y m ≤ daysBeforeMonth y m' := by
  induction m' with
  | zero => omega
  | succ k ih =>
    rcases Nat.lt_or_ge m (k + 1) with hlt | hge
    · have hk : 1 ≤ k := by omega
      have hs := daysBeforeMonth_succ y k hk
      have hih := ih (by omega)
      omega
    · have hm : m = k + 1 := by omega
      subst hm
      omega

theorem daysBeforeYear_step_leap (x : Nat)
    (h : (x + 1) % 4 = 0 ∧ ((x + 1) % 100 ≠ 0 ∨ (x + 1) % 400 = 0)) :
    365 * (x + 1) + ((x + 1) / 4 + (x + 1) / 400) + x / 100
      = 365 * x + (x / 4 + x / 400) + (x + 1) / 100 + 366 := by
  omega

theorem daysBeforeYear_step_common (x : Nat)
    (h : ¬((x + 1) % 4 = 0 ∧ ((x + 1) % 100 ≠ 0 ∨ (x + 1) % 400 = 0))) :
    365 * (x + 1) + ((x + 1) / 4 + (x + 1) / 400) + x / 100
      = 365 * x + (x / 4 + x / 400) + (x + 1) / 100 + 365 := by
  omega

theorem daysBeforeYear_succ (y : Nat) (h : 1 ≤ y) :
    daysBeforeYear (y + 1) = daysBeforeYear y + (if isLeap y then 366 else 365) := by
  have hiff := isLeap_iff y
  rcases Bool.eq_false_or_eq_true (isLeap y) with hL | hL
  · have harith : y % 4 = 0 ∧ (y % 100 ≠ 0 ∨ y % 400 = 0) := hiff.mp hL
    rw [if_pos hL]
    unfold daysBeforeYear
    obtain ⟨x, rfl⟩ : ∃ x, y = x + 1 := ⟨y - 1, by omega⟩
    simp only [Nat.add_sub_cancel]
    have hA : (x + 1) / 100 ≤ 365 * (x + 1) + ((x + 1) / 4 + (x + 1) / 400) := by
      have := Nat.div_le_self (x + 1) 100
      omega
    have hB : x / 100 ≤ 365 * x + (x / 4 + x / 400) := by
      have := Nat.div_le_self x 100
      omega
    have hadd := daysBeforeYear_step_leap x harith
    zify [hA, hB]
    zify at hadd
    linarith
  · have harith : ¬(y % 4 = 0 ∧ (y % 100 ≠ 0 ∨ y % 400 = 0)) := by
      rw [← hiff, hL]
      simp
    rw [if_neg (by simp [hL])]
    unfold daysBeforeYear
    obtain ⟨x, rfl⟩ : ∃ x, y = x + 1 := ⟨y - 1, by omega⟩
    simp only [Nat.add_sub_cancel]
    have hA : (x + 1) / 100 ≤ 365 * (x + 1) + ((x + 1) / 4 + (x + 1) / 400) := by
      have := Nat.div_le_self (x + 1) 100
      omega
    have hB : x / 100 ≤ 365 * x + (x / 4 + x / 400) := by
      have := Nat.div_le_self x 100
      omega
    have hadd := daysBeforeYear_step_common x harith
    zify [hA, hB]
    zify at hadd
    linarith

theorem daysBeforeYear_le_succ (y : Nat) :
    daysBeforeYear y ≤ daysBeforeYear (y + 1) := by
  rcases Nat.eq_zero_or_pos y with h | h
  · subst h
    decide
  · rw [daysBeforeYear_succ y h]
    split <;> omega

theorem daysBeforeYear_mono {y y' : Nat} (h : y ≤ y') :
    daysBeforeYear y ≤ daysBeforeYear y' := by
  induction y' with
  | zero =>
    have hy : y = 0 := by omega
    subst hy
    exact le_rfl
  | succ k ih =>
    rcases Nat.lt_or_ge y (k + 1) with hlt | hge
    · exact le_trans (ih (by omega)) (daysBeforeYear_le_succ k)
    · have hm : y = k + 1 := by omega
      subst hm
      exact le_rfl

/-- Strict monotonicity of the ordinal over the lexicographic order of
valid dates. -/
theorem ordinalDay_lt_of_year_lt {y m d y' m' d' : Nat} (hy : 1 ≤ y)
    (hm : 1 ≤ m) (hm12 : m ≤ 12) (hd : d ≤ monthLen y m) (hd' : 1 ≤ d')
    (h : y < y') : ordinalDay y m d < ordinalDay y' m' d' := by
  unfold ordinalDay
  have h1 : daysBeforeMonth y m + d ≤ daysBeforeMonth y 13 := by
    have h2 : daysBeforeMonth y (m + 1) = daysBeforeMonth y m + monthLen y m :=
      daysBeforeMonth_succ y m hm
    have h3 : daysBeforeMonth y (m + 1) ≤ daysBeforeMonth y 13 :=
      daysBeforeMonth_mono y (by omega) (by omega)
    omega
  have h4 : daysBeforeYear y + daysBeforeMonth y 13 ≤ daysBeforeYear (y + 1) := by
    rw [daysBeforeYear_succ y (by omega), daysBeforeMonth_13]
  have h5 : daysBeforeYear (y + 1) ≤ daysBeforeYear y' := daysBeforeYear_mono (by omega)
  omega

theorem ordinalDay_lt_of_month_lt {y m d m' d' : Nat} (hm : 1 ≤ m)
    (hd : d ≤ monthLen y m) (hd' : 1 ≤ d') (h : m < m') :
    ordinalDay y m d < ordinalDay y m' d' := by
  unfold ordinalDay
  have h2 : daysBeforeMonth y (m + 1) = daysBeforeMonth y m + monthLen y m :=
    daysBeforeMonth_succ y m hm
  have h3 : daysBeforeMonth y (m + 1) ≤ daysBeforeMonth y m' :=
    daysBeforeMonth_mono y (by omega) (by omega)
  omega

theorem ordinalDay_pos (y m d : Nat) (hd : 1 ≤ d) : 1 ≤ ordinalDay y m d := by
  unfold ordinalDay; omega

/-! ## Order facts about datetime keys -/

theorem DateTime.tKey_lt (d : DateTime) (h : d.Valid) :
    d.tKey < 86400000000 := by
  obtain ⟨_, _, _, _, _, h6, h7, h8, h9⟩ := h
  unfold DateTime.tKey timeKey
  omega

theorem TimeOfDay.tKey_bound (t : TimeOfDay) (h1 : t.hour ≤ 23)
    (h2 : t.minute ≤ 59) : t.tKey < 86400000000 := by
  unfold TimeOfDay.tKey timeKey
  omega

/-- For valid datetimes, the `key` order is the lexicographic
(year, month, day, time-of-day) order, i.e. exactly the order of Python
`datetime` objects. -/
theorem DateTime.key_lt_iff {a b : DateTime} (ha : a.Valid) (hb : b.Valid) :
    a.key < b.key ↔
      a.monthKey < b.monthKey ∨
        (a.year = b.year ∧ a.month = b.month ∧
          (a.day < b.day ∨ (a.day = b.day ∧ a.tKey < b.tKey))) := by
  have hta := a.tKey_lt ha
  have htb := b.tKey_lt hb
  have hda : a.day ≤ 31 := le_trans ha.2.2.2.2.1 (monthLen_le _ _)
  have hdb : b.day ≤ 31 := le_trans hb.2.2.2.2.1 (monthLen_le _ _)
  obtain ⟨ha1, ha2, ha3, ha4, -⟩ := ha
  obtain ⟨hb1, hb2, hb3, hb4, -⟩ := hb
  unfold DateTime.key DateTime.monthKey
  omega

theorem DateTime.key_inj {a b : DateTime} (ha : a.Valid) (hb : b.Valid)
    (h : a.key = b.key) : a.year = b.year ∧ a.month = b.month ∧
      a.day = b.day ∧ a.tKey = b.tKey := by
  have hta := a.tKey_lt ha
  have htb := b.tKey_lt hb
  have hda : a.day ≤ 31 := le_trans ha.2.2.2.2.1 (monthLen_le _ _)
  have hdb : b.day ≤ 31 := le_trans hb.2.2.2.2.1 (monthLen_le _ _)
  obtain ⟨ha1, ha2, ha3, ha4, -⟩ := ha
  obtain ⟨hb1, hb2, hb3, hb4, -⟩ := hb
  unfold DateTime.key at h
  refine ⟨by omega, by omega, by omega, by omega⟩

/-- For valid datetimes the `instant` order agrees with the `key`
order: both are the Python `datetime` order. -/
theorem DateTime.instant_lt_of_key_lt {a b : DateTime} (ha : a.Valid)
    (hb : b.Valid) (h : a.key < b.key) : a.instant < b.instant := by
  rcases (DateTime.key_lt_iff ha hb).mp h with hm | ⟨hy, hmo, hrest⟩
  · have hord : ordinalDay a.year a.month a.day < ordinalDay b.year b.month b.day := by
      unfold DateTime.monthKey at hm
      rcases Nat.lt_or_ge a.year b.year with hy | hy
      · exact ordinalDay_lt_of_year_lt ha.1 ha.2.1 ha.2.2.1 ha.2.2.2.2.1 hb.2.2.2.1 hy
      · have hyy : a.year = b.year := by
          have := ha.2.1; have := ha.2.2.1; have := hb.2.1; have := hb.2.2.1
          omega
        have hdm : a.day ≤ monthLen b.year a.month := by
          rw [← hyy]
          exact ha.2.2.2.2.1
        rw [hyy]
        exact ordinalDay_lt_of_month_lt ha.2.1 hdm hb.2.2.2.1 (by omega)
    have h1 : 1 ≤ ordinalDay a.year a.month a.day := ordinalDay_pos _ _ _ ha.2.2.2.1
    have hta := a.tKey_lt ha
    have htb := b.tKey_lt hb
    unfold DateTime.instant
    omega
  · rcases hrest with hd | ⟨hd, ht⟩
    · have hord : ordinalDay a.year a.month a.day < ordinalDay b.year b.month b.day := by
        rw [hy, hmo]; unfold ordinalDay; omega
      have h1 : 1 ≤ ordinalDay a.year a.month a.day := ordinalDay_pos _ _ _ ha.2.2.2.1
      have hta := a.tKey_lt ha
      have htb := b.tKey_lt hb
      unfold DateTime.instant
      omega
    · unfold DateTime.instant
      rw [hy, hmo, hd]
      omega

theorem DateTime.key_lt_of_instant_lt {a b : DateTime} (ha : a.Valid)
    (hb : b.Valid) (h : a.instant < b.instant) : a.key < b.key := by
  rcases Nat.lt_trichotomy a.key b.key with hk | hk | hk
  · exact hk
  · obtain ⟨h1, h2, h3, h4⟩ := DateTime.key_inj ha hb hk
    unfold DateTime.instant at h
    rw [h1, h2, h3] at h
    omega
  · exact absurd (DateTime.instant_lt_of_key_lt hb ha hk) (by omega)

/-! ## `timedelta` correctness -/

theorem nextDay_instant (d : DateTime) (h : d.Valid) :
    (nextDay d).instant = d.instant + 86400000000 ∧ (nextDay d).Valid := by
  obtain ⟨h1, h2, h3, h4, h5, h6, h7, h8, h9⟩ := h
  unfold nextDay
  split
  · rename_i hlt
    refine ⟨?_, h1, h2, h3, ?_, ?_, h6, h7, h8, h9⟩
    · show (ordinalDay d.year d.month (d.day + 1) - 1) * 86400000000 +
          timeKey d.hour d.minute d.second d.microsecond =
        (ordinalDay d.year d.month d.day - 1) * 86400000000 +
          timeKey d.hour d.minute d.second d.microsecond + 86400000000
      unfold ordinalDay
      omega
    · show 1 ≤ d.day + 1
      omega
    · show d.day + 1 ≤ monthLen d.year d.month
      omega
  · rename_i hday
    split
    · rename_i hm12
      have hord : ordinalDay d.year (d.month + 1) 1 =
          ordinalDay d.year d.month d.day + 1 := by
        unfold ordinalDay
        rw [daysBeforeMonth_succ d.year d.month h2]
        omega
      refine ⟨?_, h1, ?_, ?_, ?_, ?_, h6, h7, h8, h9⟩
      · show (ordinalDay d.year (d.month + 1) 1 - 1) * 86400000000 +
            timeKey d.hour d.minute d.second d.microsecond =
          (ordinalDay d.year d.month d.day - 1) * 86400000000 +
            timeKey d.hour d.minute d.second d.microsecond + 86400000000
        rw [hord]
        have hp := ordinalDay_pos d.year d.month d.day h4
        omega
      · show 1 ≤ d.month + 1
        omega
      · show d.month + 1 ≤ 12
        omega
      · show (1 : Nat) ≤ 1
        omega
      · show (1 : Nat) ≤ monthLen d.year (d.month + 1)
        exact le_trans (by omega) (monthLen_ge d.year (d.month + 1))
    · rename_i hm12
      have hm : d.month = 12 := by omega
      have hml : monthLen d.year 12 = 31 := rfl
      have hday31 : d.day = 31 := by
        rw [hm, hml] at h5
        rw [hm, hml] at hday
        omega
      have hord : ordinalDay (d.year + 1) 1 1 =
          ordinalDay d.year 12 31 + 1 := by
        unfold ordinalDay
        rw [daysBeforeYear_succ d.year h1, daysBeforeMonth_one]
        have h13 : daysBeforeMonth d.year 13 =
            daysBeforeMonth d.year 12 + monthLen d.year 12 :=
          daysBeforeMonth_succ d.year 12 (by omega)
        have h13' := daysBeforeMonth_13 d.year
        split_ifs at h13' ⊢ <;> omega
      refine ⟨?_, ?_, ?_, ?_, ?_, ?_, h6, h7, h8, h9⟩
      · show (ordinalDay (d.year + 1) 1 1 - 1) * 86400000000 +
            timeKey d.hour d.minute d.second d.microsecond =
          (ordinalDay d.year d.month d.day - 1) * 86400000000 +
            timeKey d.hour d.minute d.second d.microsecond + 86400000000
        rw [hm, hday31, hord]
        have hp := ordinalDay_pos d.year 12 31 (by omega)
        omega
      · show 1 ≤ d.year + 1
        omega
      · show (1 : Nat) ≤ 1
        omega
      · show (1 : Nat) ≤ 12
        omega
      · show (1 : Nat) ≤ 1
        omega
      · show (1 : Nat) ≤ monthLen (d.year + 1) 1
        exact le_trans (by omega) (monthLen_ge (d.year + 1) 1)

theorem addDays_instant (n : Nat) :
    ∀ d : DateTime, d.Valid →
      (addDays d n).instant = d.instant + n * 86400000000 ∧ (addDays d n).Valid := by
  induction n with
  | zero => intro d h; simpa [addDays] using h
  | succ k ih =>
    intro d h
    have hstep := nextDay_instant d h
    have := ih (nextDay d) hstep.2
    unfold addDays
    constructor
    · rw [this.1, hstep.1]; ring
    · exact this.2

theorem addMinutes_instant (d : DateTime) (k : Nat) (h : d.Valid) :
    (addMinutes d k).instant = d.instant + k * 60000000 ∧
      (addMinutes d k).Valid := by
  obtain ⟨h1, h2, h3, h4, h5, h6, h7, h8, h9⟩ := h
  have hv' : DateTime.Valid
      { d with minute := (d.minute + k) % 60,
               hour := (d.hour + (d.minute + k) / 60) % 24 } := by
    refine ⟨h1, h2, h3, h4, h5, ?_, ?_, h8, h9⟩
    · show (d.hour + (d.minute + k) / 60) % 24 ≤ 23
      omega
    · show (d.minute + k) % 60 ≤ 59
      omega
  have had := addDays_instant ((d.hour + (d.minute + k) / 60) / 24) _ hv'
  constructor
  · show (addDays
        { d with minute := (d.minute + k) % 60,
                 hour := (d.hour + (d.minute + k) / 60) % 24 }
        ((d.hour + (d.minute + k) / 60) / 24)).instant = d.instant + k * 60000000
    rw [had.1]
    show (ordinalDay d.year d.month d.day - 1) * 86400000000 +
        timeKey ((d.hour + (d.minute + k) / 60) % 24) ((d.minute + k) % 60)
          d.second d.microsecond +
        (d.hour + (d.minute + k) / 60) / 24 * 86400000000 =
      (ordinalDay d.year d.month d.day - 1) * 86400000000 +
        timeKey d.hour d.minute d.second d.microsecond + k * 60000000
    unfold timeKey
    omega
  · show (addDays
        { d with minute := (d.minute + k) % 60,
                 hour := (d.hour + (d.minute + k) / 60) % 24 }
        ((d.hour + (d.minute + k) / 60) / 24)).Valid
    exact had.2

end Groc

namespace Groc

/-! ## Theory of the month generator

`nextMonthStep` carries the generator state `(potential, after,
wrapcount)`.  Because `potential` is always a filtered copy of the
sorted month list, the yielded pair is a function `monthSucc` of
`(after, wrapcount)` alone; `monthIter` iterates it. -/

/-- The yielded pair of one generator step, as a function of the last
produced value and the wrap counter. -/
def monthSucc (ms : List Nat) (a w : Nat) : Nat × Nat :=
  match ms.filter (fun x => decide (a < x)) with
  | [] => (ms.headD 0, w + 1)
  | x :: _ => (x, w)

/-- Iterate `monthSucc` from a pair. -/
def monthIter (ms : List Nat) (p : Nat × Nat) : Nat → Nat × Nat
  | 0 => p
  | n + 1 => monthSucc ms (monthIter ms p n).1 (monthIter ms p n).2

theorem monthSucc_eq_nil {ms : List Nat} {a w : Nat}
    (h : ms.filter (fun x => decide (a < x)) = []) :
    monthSucc ms a w = (ms.headD 0, w + 1) := by
  unfold monthSucc
  rw [h]

theorem monthSucc_eq_cons {ms : List Nat} {a w x : Nat} {rest : List Nat}
    (h : ms.filter (fun y => decide (a < y)) = x :: rest) :
    monthSucc ms a w = (x, w) := by
  unfold monthSucc
  rw [h]

theorem nextMonthStep_eq_nil {ms : List Nat} {s : MonthGenState}
    (h : s.potential.filter (fun x => decide (s.after < x)) = []) :
    nextMonthStep ms s =
      ((ms.headD 0, s.wrapcount + 1), ⟨ms, ms.headD 0, s.wrapcount + 1⟩) := by
  unfold nextMonthStep
  rw [h]

theorem nextMonthStep_eq_cons {ms : List Nat} {s : MonthGenState} {x : Nat}
    {rest : List Nat}
    (h : s.potential.filter (fun y => decide (s.after < y)) = x :: rest) :
    nextMonthStep ms s = ((x, s.wrapcount), ⟨x :: rest, x, s.wrapcount⟩) := by
  unfold nextMonthStep
  rw [h]

/-- The generator-state invariant: `potential` agrees with the full
sorted list above `after`. -/
def GenInv (ms : List Nat) (s : MonthGenState) : Prop :=
  s.potential.filter (fun x => decide (s.after < x)) =
    ms.filter (fun x => decide (s.after < x))

theorem genInv_init (ms : List Nat) (a w : Nat) : GenInv ms ⟨ms, a, w⟩ := rfl

/-- Under the invariant, a generator step yields `monthSucc` of
`(after, wrapcount)`, and the new state again satisfies the invariant
with its `after`/`wrapcount` set to the yielded pair. -/
theorem nextMonthStep_spec (ms : List Nat) (s : MonthGenState)
    (hinv : GenInv ms s) :
    (nextMonthStep ms s).1 = monthSucc ms s.after s.wrapcount ∧
      (nextMonthStep ms s).2.after = (nextMonthStep ms s).1.1 ∧
      (nextMonthStep ms s).2.wrapcount = (nextMonthStep ms s).1.2 ∧
      GenInv ms (nextMonthStep ms s).2 := by
  cases hf : s.potential.filter (fun x => decide (s.after < x)) with
  | nil =>
    have hf2 : ms.filter (fun x => decide (s.after < x)) = [] := by
      rw [← hinv]
      exact hf
    rw [nextMonthStep_eq_nil hf, monthSucc_eq_nil hf2]
    exact ⟨rfl, rfl, rfl, rfl⟩
  | cons x rest =>
    have hf2 : ms.filter (fun y => decide (s.after < y)) = x :: rest := by
      rw [← hinv]
      exact hf
    rw [nextMonthStep_eq_cons hf, monthSucc_eq_cons hf2]
    refine ⟨rfl, rfl, rfl, ?_⟩
    have hx : x ∈ ms ∧ s.after < x := by
      have hm : x ∈ ms.filter (fun y => decide (s.after < y)) := by
        rw [hf2]
        exact List.mem_cons_self x rest
      have h2 := List.mem_filter.mp hm
      exact ⟨h2.1, by simpa using h2.2⟩
    show (x :: rest).filter (fun y => decide (x < y)) =
      ms.filter (fun y => decide (x < y))
    have h1 : (x :: rest).filter (fun y => decide (x < y)) =
        (ms.filter (fun y => decide (s.after < y))).filter
          (fun y => decide (x < y)) := by
      rw [hf2]
    rw [h1, List.filter_filter]
    apply List.filter_congr
    intro y _
    rcases Nat.lt_or_ge x y with h | h
    · simp [h, lt_of_le_of_lt (Nat.le_of_lt hx.2) h]
    · simp [Nat.not_lt.mpr h]

/-- The yielded month is in the list; the yield is either the least
list element above `after` (wrap unchanged) or, when none exists, the
least element of the whole list with the wrap counter bumped. -/
theorem monthSucc_spec (ms : List Nat) (hs : List.Sorted (· ≤ ·) ms)
    (hne : ms ≠ []) (a w : Nat) :
    (monthSucc ms a w).1 ∈ ms ∧
      (((monthSucc ms a w).2 = w ∧ a < (monthSucc ms a w).1 ∧
          ∀ x ∈ ms, a < x → (monthSucc ms a w).1 ≤ x) ∨
        ((monthSucc ms a w).2 = w + 1 ∧ (∀ x ∈ ms, x ≤ a) ∧
          ∀ x ∈ ms, (monthSucc ms a w).1 ≤ x)) := by
  cases hf : ms.filter (fun x => decide (a < x)) with
  | nil =>
    have hall : ∀ x ∈ ms, x ≤ a := by
      intro x hx
      by_contra hgt
      have hm : x ∈ ms.filter (fun y => decide (a < y)) :=
        List.mem_filter.mpr ⟨hx, by simpa using Nat.lt_of_not_le hgt⟩
      rw [hf] at hm
      exact absurd hm (List.not_mem_nil x)
    rw [monthSucc_eq_nil hf]
    obtain ⟨y, t, rfl⟩ : ∃ y t, ms = y :: t := by
      cases ms with
      | nil => exact absurd rfl hne
      | cons y t => exact ⟨y, t, rfl⟩
    refine ⟨by simp, Or.inr ⟨rfl, hall, ?_⟩⟩
    intro x hx
    simp only [List.headD_cons]
    rcases List.mem_cons.mp hx with h | h
    · omega
    · exact (List.sorted_cons.mp hs).1 x h
  | cons x rest =>
    rw [monthSucc_eq_cons hf]
    have hmem : x ∈ ms.filter (fun y => decide (a < y)) := by
      rw [hf]
      exact List.mem_cons_self x rest
    have h2 := List.mem_filter.mp hmem
    refine ⟨h2.1, Or.inl ⟨rfl, by simpa using h2.2, ?_⟩⟩
    intro z hz haz
    have hzf : z ∈ ms.filter (fun y => decide (a < y)) :=
      List.mem_filter.mpr ⟨hz, by simpa using haz⟩
    rw [hf] at hzf
    have hsf : List.Sorted (· ≤ ·) (x :: rest) := by
      rw [← hf]
      exact hs.sublist (List.filter_sublist ms)
    rcases List.mem_cons.mp hzf with h | h
    · omega
    · exact (List.sorted_cons.mp hsf).1 z h

/-- Each step strictly increases the chronological key `12 * wrap + month`. -/
theorem monthSucc_key_gt (ms : List Nat) (hs : List.Sorted (· ≤ ·) ms)
    (hne : ms ≠ []) (hmem : ∀ x ∈ ms, 1 ≤ x ∧ x ≤ 12) {a w : Nat}
    (ha : a ≤ 12) :
    12 * w + a < 12 * (monthSucc ms a w).2 + (monthSucc ms a w).1 := by
  obtain ⟨hm, hcase⟩ := monthSucc_spec ms hs hne a w
  have hb := hmem _ hm
  rcases hcase with ⟨hw, hgt, -⟩ | ⟨hw, -, -⟩ <;> omega

/-- No configured month/wrap pair lies strictly between the current
position and the next yield: the generator does not skip. -/
theorem monthSucc_noskip (ms : List Nat) (hs : List.Sorted (· ≤ ·) ms)
    (hne : ms ≠ []) (hmem : ∀ x ∈ ms, 1 ≤ x ∧ x ≤ 12) {a w mt wt : Nat}
    (hmt : mt ∈ ms) (h : 12 * w + a < 12 * wt + mt) :
    12 * (monthSucc ms a w).2 + (monthSucc ms a w).1 ≤ 12 * wt + mt := by
  obtain ⟨hm, hcase⟩ := monthSucc_spec ms hs hne a w
  have hb := hmem _ hm
  have hbt := hmem _ hmt
  rcases hcase with ⟨hw, hgt, hmin⟩ | ⟨hw, hall, hmin⟩
  · rcases Nat.lt_or_ge w wt with hww | hww
    · omega
    · have hwt : wt = w := by omega
      subst hwt
      have hlt : a < mt := by omega
      have := hmin mt hmt hlt
      omega
  · have hle : mt ≤ a := hall mt hmt
    have hww : w < wt := by omega
    have := hmin mt hmt
    omega

theorem monthIter_mem (ms : List Nat) (hs : List.Sorted (· ≤ ·) ms)
    (hne : ms ≠ []) {p : Nat × Nat} (hp : p.1 ∈ ms) (n : Nat) :
    (monthIter ms p n).1 ∈ ms := by
  cases n with
  | zero => exact hp
  | succ k => exact (monthSucc_spec ms hs hne _ _).1

theorem monthIter_shift (ms : List Nat) (q : Nat × Nat) (j : Nat) :
    monthIter ms q (j + 1) = monthIter ms (monthSucc ms q.1 q.2) j := by
  induction j with
  | zero => rfl
  | succ i ihj =>
    show monthSucc ms (monthIter ms q (i + 1)).1 (monthIter ms q (i + 1)).2 =
      monthSucc ms (monthIter ms (monthSucc ms q.1 q.2) i).1
        (monthIter ms (monthSucc ms q.1 q.2) i).2
    rw [ihj]

/-- Reachability: every configured pair at or beyond the current
position is eventually yielded by the iteration. -/
theorem monthIter_reach (ms : List Nat) (hs : List.Sorted (· ≤ ·) ms)
    (hne : ms ≠ []) (hmem : ∀ x ∈ ms, 1 ≤ x ∧ x ≤ 12) {mt wt : Nat}
    (hmt : mt ∈ ms) :
    ∀ (k : Nat) (p : Nat × Nat), p.1 ∈ ms →
      12 * p.2 + p.1 ≤ 12 * wt + mt →
      12 * wt + mt - (12 * p.2 + p.1) ≤ k →
      ∃ n, monthIter ms p n = (mt, wt) := by
  intro k
  induction k with
  | zero =>
    intro p hp hge hk
    refine ⟨0, ?_⟩
    have h1 := hmem _ hp
    have h2 := hmem _ hmt
    have hm : p.1 = mt ∧ p.2 = wt := by omega
    show p = (mt, wt)
    cases p
    simp_all
  | succ k ih =>
    intro p hp hge hk
    rcases Nat.lt_or_ge (12 * p.2 + p.1) (12 * wt + mt) with hlt | hge2
    · have hstep := monthSucc_key_gt ms hs hne hmem (a := p.1) (w := p.2)
        (hmem _ hp).2
      have hns := monthSucc_noskip ms hs hne hmem (a := p.1) (w := p.2) hmt hlt
      obtain ⟨n, hn⟩ := ih (monthSucc ms p.1 p.2)
        (monthSucc_spec ms hs hne _ _).1 (by omega) (by omega)
      refine ⟨n + 1, ?_⟩
      rw [monthIter_shift]
      exact hn
    · refine ⟨0, ?_⟩
      have h1 := hmem _ hp
      have h2 := hmem _ hmt
      have hm : p.1 = mt ∧ p.2 = wt := by omega
      show p = (mt, wt)
      cases p
      simp_all

end Groc

namespace Groc

/-! ## The day predicate and the day-list lemmas -/

/-- The weekday (Sunday = 0) of day 1 of a month, written as the code
computes it from `calendar.monthrange`: `(start_day + 1) % 7` with
`start_day` the Monday = 0 weekday. -/
theorem startDay_eq_weekdaySun0 (y m : Nat) :
    (weekdayMon0 y m 1 + 1) % 7 = weekdaySun0 y m 1 := by
  unfold weekdayMon0 weekdaySun0
  have h := ordinalDay_pos y m 1 (by omega)
  omega

/-- The spec's ordinal-weekday day formula:
`((weekday - firstWeekdayOfMonth) mod 7) + 1 + 7 * (ordinal - 1)`, with
`firstWeekdayOfMonth` the Sunday = 0 weekday of day 1 of the month. -/
def ordinalWeekdayDay (y m o w : Nat) : Int :=
  ((w : Int) - (weekdaySun0 y m 1 : Int)) % 7 + 1 + 7 * ((o : Int) - 1)

theorem ordinalWeekdayDay_emod_bounds (y m o w : Nat) :
    0 ≤ ((w : Int) - (weekdaySun0 y m 1 : Int)) % 7 ∧
      ((w : Int) - (weekdaySun0 y m 1 : Int)) % 7 < 7 :=
  ⟨Int.emod_nonneg _ (by omega), Int.emod_lt_of_pos _ (by omega)⟩

/-- Lower bound: an ordinal-weekday day with `1 ≤ o` is at least 1. -/
theorem ordinalWeekdayDay_ge_one (y m o w : Nat) (ho : 1 ≤ o) :
    1 ≤ ordinalWeekdayDay y m o w := by
  obtain ⟨h1, h2⟩ := ordinalWeekdayDay_emod_bounds y m o w
  unfold ordinalWeekdayDay
  have : (1 : Int) ≤ (o : Int) := by exact_mod_cast ho
  nlinarith

/-- For ordinal 1 the day is at most 7. -/
theorem ordinalWeekdayDay_ord_one_le (y m w : Nat) :
    ordinalWeekdayDay y m 1 w ≤ 7 := by
  obtain ⟨h1, h2⟩ := ordinalWeekdayDay_emod_bounds y m 1 w
  unfold ordinalWeekdayDay
  omega

/-- Membership characterization of `_MatchingDays`. -/
theorem mem_MatchingDays {ordinals weekdays : List Nat} {y m : Nat}
    {d : Int} :
    d ∈ MatchingDays ordinals weekdays y m ↔
      ∃ o ∈ ordinals, ∃ w ∈ weekdays,
        d = ordinalWeekdayDay y m o w ∧ d ≤ (monthLen y m : Int) := by
  simp only [MatchingDays]
  rw [List.mem_insertionSort, List.mem_flatMap]
  constructor
  · rintro ⟨o, ho, hmem⟩
    obtain ⟨w, hw, hfw⟩ := List.mem_filterMap.mp hmem
    split_ifs at hfw with hle
    have hd : ((w : Int) - ((weekdayMon0 y m 1 + 1) % 7 : Nat)) % 7 + 1 +
        7 * ((o : Int) - 1) = d := Option.some_inj.mp hfw
    refine ⟨o, ho, w, hw, ?_, ?_⟩
    · rw [← hd]
      unfold ordinalWeekdayDay
      rw [startDay_eq_weekdaySun0]
    · rw [← hd]
      exact hle
  · rintro ⟨o, ho, w, hw, hd, hle⟩
    have hcond : ordinalWeekdayDay y m o w ≤ (monthLen y m : Int) := by
      rw [← hd]
      exact hle
    refine ⟨o, ho, List.mem_filterMap.mpr ⟨w, hw, ?_⟩⟩
    rw [startDay_eq_weekdaySun0]
    show (if ordinalWeekdayDay y m o w ≤ (monthLen y m : Int) then
        some (ordinalWeekdayDay y m o w) else none) = some d
    rw [if_pos hcond, hd]

theorem MatchingDays_sorted (ordinals weekdays : List Nat) (y m : Nat) :
    List.Sorted (· ≤ ·) (MatchingDays ordinals weekdays y m) := by
  unfold MatchingDays
  exact List.sorted_insertionSort _ _

/-- With `1 ∈ ordinals` and a non-empty weekday set, every month has a
matching day (the first occurrence of any weekday falls on day ≤ 7 ≤ 28
≤ month length). -/
theorem MatchingDays_ne_nil {ordinals weekdays : List Nat} {y m : Nat}
    (h1 : 1 ∈ ordinals) (hw : weekdays ≠ []) :
    MatchingDays ordinals weekdays y m ≠ [] := by
  obtain ⟨w, hwmem⟩ : ∃ w, w ∈ weekdays := by
    cases weekdays with
    | nil => exact absurd rfl hw
    | cons a t => exact ⟨a, List.mem_cons_self a t⟩
  have hlen : (28 : Int) ≤ (monthLen y m : Int) := by
    exact_mod_cast monthLen_ge y m
  have hmem : ordinalWeekdayDay y m 1 w ∈ MatchingDays ordinals weekdays y m :=
    mem_MatchingDays.mpr ⟨1, h1, w, hwmem, rfl,
      le_trans (ordinalWeekdayDay_ord_one_le y m w) (by omega)⟩
  exact List.ne_nil_of_mem hmem

/-- The invariant of a `SpecificTimeSpecification` as delivered by the
external parser (spec section 3): all set values in range, months
non-empty after defaulting, and a valid time-of-day. -/
def SpecOK (spec : SpecificTimeSpecification) : Prop :=
  (∀ o ∈ spec.ordinals, 1 ≤ o ∧ o ≤ 5) ∧
    (∀ w ∈ spec.weekdays, w ≤ 6) ∧
    (∀ m ∈ spec.months, 1 ≤ m ∧ m ≤ 12) ∧
    (∀ d ∈ spec.monthdays, 1 ≤ d ∧ d ≤ 31) ∧
    spec.months ≠ [] ∧ spec.time.hour ≤ 23 ∧ spec.time.minute ≤ 59

instance (spec : SpecificTimeSpecification) : Decidable (SpecOK spec) := by
  unfold SpecOK
  infer_instance

/-- The day-of-month constraint of the schedule, as the spec states it:
a day from `monthdays` when that set is non-empty, otherwise an
ordinal-weekday day. -/
def SatDay (spec : SpecificTimeSpecification) (y m dn : Nat) : Prop :=
  if spec.monthdays ≠ [] then dn ∈ spec.monthdays
  else ∃ o ∈ spec.ordinals, ∃ w ∈ spec.weekdays,
    (dn : Int) = ordinalWeekdayDay y m o w

instance (spec : SpecificTimeSpecification) (y m dn : Nat) :
    Decidable (SatDay spec y m dn) := by
  unfold SatDay
  infer_instance

/-- A datetime satisfies the schedule iff its month is configured, its
day satisfies the day constraint, its time of day is the configured one
and its seconds and microseconds are zero. -/
def Satisfies (spec : SpecificTimeSpecification) (d : DateTime) : Prop :=
  d.month ∈ spec.months ∧ SatDay spec d.year d.month d.day ∧
    d.hour = spec.time.hour ∧ d.minute = spec.time.minute ∧
    d.second = 0 ∧ d.microsecond = 0

instance (spec : SpecificTimeSpecification) (d : DateTime) :
    Decidable (Satisfies spec d) := by
  unfold Satisfies
  infer_instance

theorem dayMatchesRaw_sorted (spec : SpecificTimeSpecification)
    (y m : Nat) : List.Sorted (· ≤ ·) (dayMatchesRaw spec y m) := by
  unfold dayMatchesRaw
  split
  · exact List.Pairwise.map (fun (x : Nat) => (x : Int))
      (fun a b hab => by simpa using hab)
      (List.sorted_insertionSort _ _)
  · exact MatchingDays_sorted _ _ _ _

/-- Every element of the raw day list is between 1 and the month
length. -/
theorem dayMatchesRaw_bounds {spec : SpecificTimeSpecification}
    (hok : SpecOK spec) {y m : Nat} {d : Int}
    (hd : d ∈ dayMatchesRaw spec y m) :
    1 ≤ d ∧ d ≤ (monthLen y m : Int) := by
  unfold dayMatchesRaw at hd
  split at hd
  · simp only [List.mem_map, List.mem_insertionSort, List.mem_filter] at hd
    obtain ⟨dn, ⟨hdn, hle⟩, rfl⟩ := hd
    have h1 := (hok.2.2.2.1 dn hdn).1
    have h2 : dn ≤ monthLen y m := by simpa using hle
    omega
  · obtain ⟨o, ho, w, hw, rfl, hle⟩ := mem_MatchingDays.mp hd
    exact ⟨ordinalWeekdayDay_ge_one y m o w (hok.1 o ho).1, hle⟩

/-- Characterization of raw day-list membership for natural days. -/
theorem mem_dayMatchesRaw {spec : SpecificTimeSpecification} {y m dn : Nat} :
    ((dn : Int) ∈ dayMatchesRaw spec y m) ↔
      (SatDay spec y m dn ∧ dn ≤ monthLen y m) := by
  unfold dayMatchesRaw SatDay
  split
  · simp only [List.mem_map, List.mem_insertionSort, List.mem_filter]
    constructor
    · rintro ⟨a, ⟨ha, hle⟩, heq⟩
      have : a = dn := by exact_mod_cast heq
      subst this
      exact ⟨ha, by simpa using hle⟩
    · rintro ⟨hdn, hle⟩
      exact ⟨dn, ⟨hdn, by simpa using hle⟩, rfl⟩
  · rw [mem_MatchingDays]
    constructor
    · rintro ⟨o, ho, w, hw, heq, hle⟩
      exact ⟨⟨o, ho, w, hw, heq⟩, by exact_mod_cast hle⟩
    · rintro ⟨⟨o, ho, w, hw, heq⟩, hle⟩
      exact ⟨o, ho, w, hw, heq, by exact_mod_cast hle⟩

theorem dropWhile_false_eq_self {α : Type} (l : List α) (p : α → Bool)
    (hp : ∀ x, p x = false) : l.dropWhile p = l := by
  cases l with
  | nil => rfl
  | cons a t =>
    rw [List.dropWhile_cons]
    simp [hp a]

/-- On a sorted list, dropping the leading elements equal to `a` from
the elements `≥ a` leaves exactly the elements `> a`. -/
theorem sorted_filter_dropWhile_eq (a : Int) :
    ∀ (l : List Int), List.Sorted (· ≤ ·) l →
      (l.filter (fun x => decide (a ≤ x))).dropWhile (fun x => x == a) =
        l.filter (fun x => decide (a < x)) := by
  intro l
  induction l with
  | nil => intro _; rfl
  | cons x xs ih =>
    intro hs
    obtain ⟨hx, hxs⟩ := List.sorted_cons.mp hs
    rcases lt_trichotomy x a with h | h | h
    · rw [List.filter_cons_of_neg (by simpa using by omega),
        List.filter_cons_of_neg (by simpa using by omega)]
      exact ih hxs
    · subst h
      rw [List.filter_cons_of_pos (by simp),
        List.filter_cons_of_neg (by simp)]
      rw [List.dropWhile_cons]
      simp only [beq_self_eq_true, if_true]
      exact ih hxs
    · rw [List.filter_cons_of_pos (by simpa using by omega),
        List.filter_cons_of_pos (by simpa using by omega)]
      rw [List.dropWhile_cons]
      have hne : (x == a) = false := by
        simp only [beq_eq_false_iff_ne]
        omega
      rw [hne]
      simp only [Bool.false_eq_true, if_false]
      congr 1
      apply List.filter_congr
      intro y hy
      have := hx y hy
      simp only [decide_eq_decide]
      omega

/-- Membership characterization of the same-month trimming: a day
survives iff it is in the list, is at or after the start day, and, when
equal to the start day, the start's time of day is still before the
scheduled time. -/
theorem mem_trimDayMatches {st : DateTime} {t : TimeOfDay}
    {dm : List Int} (hs : List.Sorted (· ≤ ·) dm) (x : Int) :
    x ∈ trimDayMatches st t dm ↔
      x ∈ dm ∧ (st.day : Int) ≤ x ∧
        (x = (st.day : Int) → ¬ t.tKey ≤ st.tKey) := by
  unfold trimDayMatches
  rcases Nat.lt_or_ge st.tKey t.tKey with hc | hc
  · have hcd : decide (t.tKey ≤ st.tKey) = false := by
      simpa using Nat.not_le.mpr hc
    simp only [hcd, Bool.and_false]
    rw [dropWhile_false_eq_self _ _ (fun _ => rfl)]
    simp only [List.mem_filter, decide_eq_true_eq]
    constructor
    · rintro ⟨hmem, hle⟩
      exact ⟨hmem, hle, fun _ => by omega⟩
    · rintro ⟨hmem, hle, -⟩
      exact ⟨hmem, hle⟩
  · have hcd : decide (t.tKey ≤ st.tKey) = true := by simpa using hc
    simp only [hcd, Bool.and_true]
    rw [sorted_filter_dropWhile_eq _ _ hs]
    simp only [List.mem_filter, decide_eq_true_eq]
    constructor
    · rintro ⟨hmem, hlt⟩
      exact ⟨hmem, by omega, fun heq => by omega⟩
    · rintro ⟨hmem, hle, himp⟩
      refine ⟨hmem, ?_⟩
      rcases lt_or_eq_of_le hle with h | h
      · exact h
      · exact absurd hc (by simpa using himp h.symm)

theorem trimDayMatches_sorted (st : DateTime) (t : TimeOfDay)
    (dm : List Int) (hs : List.Sorted (· ≤ ·) dm) :
    List.Sorted (· ≤ ·) (trimDayMatches st t dm) :=
  (hs.sublist (List.filter_sublist dm)).sublist (List.dropWhile_sublist _)

/-- The head of a sorted list is a lower bound for its members. -/
theorem sorted_head_le {l : List Int} (hs : List.Sorted (· ≤ ·) l)
    {d : Int} {rest : List Int} (hl : l = d :: rest) {x : Int}
    (hx : x ∈ l) : d ≤ x := by
  subst hl
  rcases List.mem_cons.mp hx with h | h
  · omega
  · exact (List.sorted_cons.mp hs).1 x h

end Groc

namespace Groc

/-! ## Bridging day lists and satisfying datetimes -/

theorem Satisfies.tKey_eq {spec : SpecificTimeSpecification}
    {dd : DateTime} (h : Satisfies spec dd) : dd.tKey = spec.time.tKey := by
  obtain ⟨-, -, h3, h4, h5, h6⟩ := h
  unfold DateTime.tKey TimeOfDay.tKey timeKey
  rw [h3, h4, h5, h6]

/-- A valid datetime strictly after `start` sits at or after `start`'s
calendar month. -/
theorem monthpos_of_key_lt {start dd : DateTime} (hsv : start.Valid)
    (hdv : dd.Valid) (h : start.key < dd.key) :
    start.year ≤ dd.year ∧
      start.month ≤ 12 * (dd.year - start.year) + dd.month := by
  rcases (DateTime.key_lt_iff hsv hdv).mp h with hm | ⟨hy, hmo, -⟩
  · unfold DateTime.monthKey at hm
    have h1 := hsv.2.1
    have h2 := hsv.2.2.1
    have h3 := hdv.2.1
    have h4 := hdv.2.2.1
    omega
  · omega

/-- The trimmed-or-raw day list of the candidate month `(start.year + W, M)`. -/
def candidateDayList (spec : SpecificTimeSpecification) (start : DateTime)
    (M W : Nat) : List Int :=
  if start.year + W = start.year ∧ M = start.month then
    trimDayMatches start spec.time (dayMatchesRaw spec (start.year + W) M)
  else dayMatchesRaw spec (start.year + W) M

theorem candidateDayList_sorted (spec : SpecificTimeSpecification)
    (start : DateTime) (M W : Nat) :
    List.Sorted (· ≤ ·) (candidateDayList spec start M W) := by
  unfold candidateDayList
  split
  · exact trimDayMatches_sorted _ _ _ (dayMatchesRaw_sorted spec _ _)
  · exact dayMatchesRaw_sorted spec _ _

/-- A satisfying datetime after `start` that lies in the candidate
month has its day in the candidate day list. -/
theorem mem_candidateDayList_of_satisfies
    {spec : SpecificTimeSpecification} {start dd : DateTime}
    (hsv : start.Valid) (hdv : dd.Valid) (hsat : Satisfies spec dd)
    (hkey : start.key < dd.key) {M W : Nat}
    (hyear : dd.year = start.year + W) (hmonth : dd.month = M) :
    (dd.day : Int) ∈ candidateDayList spec start M W := by
  have hraw : (dd.day : Int) ∈ dayMatchesRaw spec (start.year + W) M := by
    rw [← hyear, ← hmonth]
    exact mem_dayMatchesRaw.mpr ⟨hsat.2.1, hdv.2.2.2.2.1⟩
  unfold candidateDayList
  split_ifs with hsame
  · obtain ⟨hY, hM⟩ := hsame
    apply (mem_trimDayMatches (dayMatchesRaw_sorted spec _ _) _).mpr
    have hmk : dd.monthKey = start.monthKey := by
      unfold DateTime.monthKey
      omega
    have hlex := (DateTime.key_lt_iff hsv hdv).mp hkey
    rcases hlex with hm | ⟨-, -, hday | ⟨hday, ht⟩⟩
    · omega
    · exact ⟨hraw, by exact_mod_cast Nat.le_of_lt hday,
        fun heq => by omega⟩
    · refine ⟨hraw, by omega, fun _ hle => ?_⟩
      rw [hsat.tKey_eq] at ht
      omega
  · exact hraw

/-- A day from the candidate day list yields a valid, satisfying
result strictly after `start`. -/
theorem result_of_mem_candidateDayList
    {spec : SpecificTimeSpecification} (hok : SpecOK spec)
    {start : DateTime} (hsv : start.Valid) {M W : Nat}
    (hM : M ∈ spec.months) (hpos : start.month ≤ 12 * W + M) {d : Int}
    (hd : d ∈ candidateDayList spec start M W) :
    (⟨start.year + W, M, d.toNat, spec.time.hour, spec.time.minute,
        0, 0⟩ : DateTime).Valid ∧
      Satisfies spec ⟨start.year + W, M, d.toNat, spec.time.hour,
        spec.time.minute, 0, 0⟩ ∧
      start.key < (⟨start.year + W, M, d.toNat, spec.time.hour,
        spec.time.minute, 0, 0⟩ : DateTime).key := by
  have hMr := hok.2.2.1 M hM
  obtain ⟨hraw, hextra⟩ :
      d ∈ dayMatchesRaw spec (start.year + W) M ∧
        (start.year + W = start.year ∧ M = start.month →
          (start.day : Int) ≤ d ∧
            (d = (start.day : Int) → ¬ spec.time.tKey ≤ start.tKey)) := by
    unfold candidateDayList at hd
    split_ifs at hd with hsame
    · obtain ⟨h1, h2, h3⟩ :=
        (mem_trimDayMatches (dayMatchesRaw_sorted spec _ _) _).mp hd
      exact ⟨h1, fun _ => ⟨h2, h3⟩⟩
    · exact ⟨hd, fun hs => absurd hs hsame⟩
  obtain ⟨hd1, hd2⟩ := dayMatchesRaw_bounds hok hraw
  have hdn : ((d.toNat : Int)) = d := Int.toNat_of_nonneg (by omega)
  have hday1 : 1 ≤ d.toNat := by omega
  have hday2 : d.toNat ≤ monthLen (start.year + W) M := by omega
  have hvalid : (⟨start.year + W, M, d.toNat, spec.time.hour,
      spec.time.minute, 0, 0⟩ : DateTime).Valid :=
    ⟨by show 1 ≤ start.year + W; have := hsv.1; omega, hMr.1, hMr.2,
      hday1, hday2, hok.2.2.2.2.2.1, hok.2.2.2.2.2.2,
      by show (0 : Nat) ≤ 59; omega, by show (0 : Nat) ≤ 999999; omega⟩
  have hsat : Satisfies spec ⟨start.year + W, M, d.toNat, spec.time.hour,
      spec.time.minute, 0, 0⟩ := by
    refine ⟨hM, ?_, rfl, rfl, rfl, rfl⟩
    have := mem_dayMatchesRaw.mp (hdn ▸ hraw)
    exact this.1
  refine ⟨hvalid, hsat, ?_⟩
  rw [DateTime.key_lt_iff hsv hvalid]
  by_cases hsame : start.year + W = start.year ∧ M = start.month
  · obtain ⟨hc1, hc2⟩ := hextra hsame
    right
    refine ⟨hsame.1.symm, hsame.2.symm, ?_⟩
    rcases lt_or_eq_of_le hc1 with h | h
    · left
      show start.day < d.toNat
      omega
    · right
      have hc3 := hc2 h.symm
      constructor
      · show start.day = d.toNat
        omega
      · show start.tKey < TimeOfDay.tKey spec.time
        omega
  · left
    show start.monthKey < (start.year + W) * 12 + M
    unfold DateTime.monthKey
    have hne : ¬(W = 0 ∧ M = start.month) := by
      intro ⟨h1, h2⟩
      exact hsame ⟨by omega, h2⟩
    have h1 := hsv.2.1
    have h2 := hsv.2.2.1
    omega

end Groc

namespace Groc

/-! ## Soundness, minimality and completeness of the search loop -/

/-- One unfolding of the search loop, stated through `candidateDayList`. -/
theorem getMatchAux_step (spec : SpecificTimeSpecification)
    (start : DateTime) (ms : List Nat) (gen : MonthGenState) (fuel : Nat) :
    GetMatchAux spec start ms gen (fuel + 1) =
      match candidateDayList spec start (nextMonthStep ms gen).1.1
          (nextMonthStep ms gen).1.2 with
      | [] => GetMatchAux spec start ms (nextMonthStep ms gen).2 fuel
      | d :: _ => .ok ⟨start.year + (nextMonthStep ms gen).1.2,
          (nextMonthStep ms gen).1.1, d.toNat, spec.time.hour,
          spec.time.minute, 0, 0⟩ := rfl

/-- Soundness and minimality of the search loop: whatever `GetMatchAux`
returns is a valid satisfying datetime strictly after `start`, and no
satisfying datetime strictly after `start` precedes it. -/
theorem getMatchAux_sound (spec : SpecificTimeSpecification)
    (start : DateTime) (hok : SpecOK spec) (hsv : start.Valid)
    (ms : List Nat) (hms_sorted : List.Sorted (· ≤ ·) ms)
    (hms_mem : ∀ x, x ∈ ms ↔ x ∈ spec.months) (hms_ne : ms ≠ []) :
    ∀ (fuel : Nat) (s : MonthGenState) (res : DateTime),
      GenInv ms s → s.after ≤ 12 →
      start.month ≤ 12 * s.wrapcount + s.after + 1 →
      (∀ dd : DateTime, dd.Valid → Satisfies spec dd → start.key < dd.key →
        12 * s.wrapcount + s.after < 12 * (dd.year - start.year) + dd.month) →
      GetMatchAux spec start ms s fuel = .ok res →
      res.Valid ∧ Satisfies spec res ∧ start.key < res.key ∧
        ∀ dd : DateTime, dd.Valid → Satisfies spec dd → start.key < dd.key →
          res.key ≤ dd.key := by
  have hms_range : ∀ x ∈ ms, 1 ≤ x ∧ x ≤ 12 :=
    fun x hx => hok.2.2.1 x ((hms_mem x).mp hx)
  intro fuel
  induction fuel with
  | zero =>
    intro s res _ _ _ _ h
    exact absurd h (by simp [GetMatchAux])
  | succ fuel ih =>
    intro s res hinv hale hpos hcov hgm
    obtain ⟨hq1, hq2, hq3, hq4⟩ := nextMonthStep_spec ms s hinv
    have hqmem : (monthSucc ms s.after s.wrapcount).1 ∈ ms :=
      (monthSucc_spec ms hms_sorted hms_ne s.after s.wrapcount).1
    have hqrange := hms_range _ hqmem
    have hqgt := monthSucc_key_gt ms hms_sorted hms_ne hms_range
      (a := s.after) (w := s.wrapcount) hale
    rw [getMatchAux_step, hq1] at hgm
    cases hdm : candidateDayList spec start
        (monthSucc ms s.after s.wrapcount).1
        (monthSucc ms s.after s.wrapcount).2 with
    | nil =>
      rw [hdm] at hgm
      apply ih (nextMonthStep ms s).2 res hq4 ?_ ?_ ?_ hgm
      · rw [hq2, hq1]
        exact hqrange.2
      · rw [hq3, hq2, hq1]
        omega
      · intro dd hdv hsat hkey
        rw [hq3, hq2, hq1]
        have h1 := hcov dd hdv hsat hkey
        have hddmem : dd.month ∈ ms := (hms_mem dd.month).mpr hsat.1
        have hns := monthSucc_noskip ms hms_sorted hms_ne hms_range
          (a := s.after) (w := s.wrapcount) hddmem h1
        rcases Nat.lt_or_ge
            (12 * (monthSucc ms s.after s.wrapcount).2 +
              (monthSucc ms s.after s.wrapcount).1)
            (12 * (dd.year - start.year) + dd.month) with hlt | hge
        · exact hlt
        · exfalso
          obtain ⟨hyge, hmge⟩ := monthpos_of_key_lt hsv hdv hkey
          have hdr1 := hdv.2.1
          have hdr2 := hdv.2.2.1
          have hyeq : dd.year = start.year + (monthSucc ms s.after s.wrapcount).2 := by
            omega
          have hmeq : dd.month = (monthSucc ms s.after s.wrapcount).1 := by
            omega
          have hmem2 := mem_candidateDayList_of_satisfies hsv hdv hsat hkey
            hyeq hmeq
          rw [hdm] at hmem2
          exact absurd hmem2 (List.not_mem_nil _)
    | cons d rest =>
      rw [hdm] at hgm
      have hres : res = ⟨start.year + (monthSucc ms s.after s.wrapcount).2,
          (monthSucc ms s.after s.wrapcount).1, d.toNat, spec.time.hour,
          spec.time.minute, 0, 0⟩ := (Except.ok.inj hgm).symm
      have hdmem : d ∈ candidateDayList spec start
          (monthSucc ms s.after s.wrapcount).1
          (monthSucc ms s.after s.wrapcount).2 := by
        rw [hdm]
        exact List.mem_cons_self d rest
      have hMmem : (monthSucc ms s.after s.wrapcount).1 ∈ spec.months :=
        (hms_mem _).mp hqmem
      have hpos2 : start.month ≤
          12 * (monthSucc ms s.after s.wrapcount).2 +
            (monthSucc ms s.after s.wrapcount).1 := by
        omega
      obtain ⟨hv, hsat, hgt⟩ := result_of_mem_candidateDayList hok hsv
        hMmem hpos2 hdmem
      refine ⟨hres ▸ hv, hres ▸ hsat, hres ▸ hgt, ?_⟩
      intro dd hdv hsatd hkeyd
      have h1 := hcov dd hdv hsatd hkeyd
      have hddmem : dd.month ∈ ms := (hms_mem dd.month).mpr hsatd.1
      have hns := monthSucc_noskip ms hms_sorted hms_ne hms_range
        (a := s.after) (w := s.wrapcount) hddmem h1
      have hrkey : res.key =
          (((start.year + (monthSucc ms s.after s.wrapcount).2) * 13 +
            (monthSucc ms s.after s.wrapcount).1) * 32 + d.toNat) *
              86400000000 + spec.time.tKey := by
        rw [hres]
        rfl
      obtain ⟨hyge, hmge⟩ := monthpos_of_key_lt hsv hdv hkeyd
      have hdr1 := hdv.2.1
      have hdr2 := hdv.2.2.1
      rcases Nat.lt_or_ge
          (12 * (monthSucc ms s.after s.wrapcount).2 +
            (monthSucc ms s.after s.wrapcount).1)
          (12 * (dd.year - start.year) + dd.month) with hlt | hge
      · have hmk : res.monthKey < dd.monthKey := by
          have : res.monthKey =
              (start.year + (monthSucc ms s.after s.wrapcount).2) * 12 +
                (monthSucc ms s.after s.wrapcount).1 := by
            rw [hres]
            rfl
          unfold DateTime.monthKey at *
          omega
        exact Nat.le_of_lt ((DateTime.key_lt_iff (hres ▸ hv) hdv).mpr
          (Or.inl hmk))
      · have hyeq : dd.year = start.year + (monthSucc ms s.after s.wrapcount).2 := by
          omega
        have hmeq : dd.month = (monthSucc ms s.after s.wrapcount).1 := by
          omega
        have hmem2 := mem_candidateDayList_of_satisfies hsv hdv hsatd hkeyd
          hyeq hmeq
        have hdle : d ≤ (dd.day : Int) :=
          sorted_head_le (candidateDayList_sorted spec start _ _) hdm hmem2
        have hdkey : dd.key =
            ((dd.year * 13 + dd.month) * 32 + dd.day) * 86400000000 +
              spec.time.tKey := by
          unfold DateTime.key
          rw [hsatd.tKey_eq]
        have hd0 : d ∈ dayMatchesRaw spec
            (start.year + (monthSucc ms s.after s.wrapcount).2)
            (monthSucc ms s.after s.wrapcount).1 := by
          unfold candidateDayList at hdmem
          split_ifs at hdmem with hsame
          · exact ((mem_trimDayMatches (dayMatchesRaw_sorted spec _ _) _).mp
              hdmem).1
          · exact hdmem
        have hdpos := (dayMatchesRaw_bounds hok hd0).1
        have hdnat : d.toNat ≤ dd.day := by omega
        rw [hrkey, hdkey, hyeq, hmeq]
        omega

end Groc

namespace Groc

/-- Completeness of the search loop: when a satisfying datetime after
`start` exists and its month pair is among the next `fuel` generator
yields, the loop returns a result. -/
theorem getMatchAux_complete (spec : SpecificTimeSpecification)
    (start : DateTime) (hok : SpecOK spec) (hsv : start.Valid)
    (ms : List Nat) (hms_sorted : List.Sorted (· ≤ ·) ms)
    (hms_mem : ∀ x, x ∈ ms ↔ x ∈ spec.months) (hms_ne : ms ≠ []) :
    ∀ (fuel : Nat) (s : MonthGenState) (dd : DateTime),
      GenInv ms s → dd.Valid → Satisfies spec dd → start.key < dd.key →
      (∃ j, j < fuel ∧ monthIter ms (monthSucc ms s.after s.wrapcount) j
          = (dd.month, dd.year - start.year)) →
      ∃ res, GetMatchAux spec start ms s fuel = .ok res := by
  intro fuel
  induction fuel with
  | zero =>
    rintro s dd _ _ _ _ ⟨j, hj, -⟩
    omega
  | succ fuel ih =>
    rintro s dd hinv hdv hsat hkey ⟨j, hj, hjeq⟩
    obtain ⟨hq1, hq2, hq3, hq4⟩ := nextMonthStep_spec ms s hinv
    cases hdm : candidateDayList spec start
        (monthSucc ms s.after s.wrapcount).1
        (monthSucc ms s.after s.wrapcount).2 with
    | cons d rest =>
      refine ⟨⟨start.year + (monthSucc ms s.after s.wrapcount).2,
          (monthSucc ms s.after s.wrapcount).1, d.toNat, spec.time.hour,
          spec.time.minute, 0, 0⟩, ?_⟩
      rw [getMatchAux_step, hq1, hdm]
    | nil =>
      have hne : ((dd.month, dd.year - start.year) : Nat × Nat) ≠
          monthSucc ms s.after s.wrapcount := by
        intro heq
        have hm1 : dd.month = (monthSucc ms s.after s.wrapcount).1 := by
          rw [← heq]
        have hm2 : dd.year - start.year =
            (monthSucc ms s.after s.wrapcount).2 := by
          rw [← heq]
        obtain ⟨hyge, -⟩ := monthpos_of_key_lt hsv hdv hkey
        have hyeq : dd.year =
            start.year + (monthSucc ms s.after s.wrapcount).2 := by
          omega
        have hmem2 := mem_candidateDayList_of_satisfies hsv hdv hsat hkey
          hyeq hm1
        rw [hdm] at hmem2
        exact absurd hmem2 (List.not_mem_nil _)
      cases j with
      | zero =>
        exact absurd hjeq.symm (by simpa [monthIter] using hne)
      | succ j2 =>
        have hnext : monthIter ms
            (monthSucc ms (nextMonthStep ms s).2.after
              (nextMonthStep ms s).2.wrapcount) j2
            = (dd.month, dd.year - start.year) := by
          rw [hq2, hq3, hq1, ← monthIter_shift]
          exact hjeq
        obtain ⟨res, hres⟩ := ih (nextMonthStep ms s).2 dd hq4 hdv hsat hkey
          ⟨j2, by omega, hnext⟩
        refine ⟨res, ?_⟩
        rw [getMatchAux_step, hq1, hdm]
        exact hres

end Groc

namespace Groc

theorem sortedMonths_ne_nil {spec : SpecificTimeSpecification}
    (h : spec.months ≠ []) : spec.months.insertionSort (· ≤ ·) ≠ [] := by
  intro hnil
  have hlen := congrArg List.length hnil
  rw [List.length_insertionSort] at hlen
  exact h (List.eq_nil_of_length_eq_zero hlen)

/-- `GetMatch` of a non-empty-months specification runs the search loop
from the seed state. -/
theorem getMatch_eq_aux (spec : SpecificTimeSpecification)
    (start : DateTime) (fuel : Nat) (h : spec.months ≠ []) :
    spec.GetMatch start fuel =
      GetMatchAux spec start (spec.months.insertionSort (· ≤ ·))
        ⟨spec.months.insertionSort (· ≤ ·), start.month - 1, 0⟩ fuel := by
  unfold SpecificTimeSpecification.GetMatch
  rw [if_neg h]

/-- Any result of `GetMatch` is a valid satisfying datetime strictly
after the start, and is the earliest such datetime. -/
theorem getMatch_sound (spec : SpecificTimeSpecification)
    (start : DateTime) (hok : SpecOK spec) (hsv : start.Valid)
    (fuel : Nat) (res : DateTime)
    (h : spec.GetMatch start fuel = .ok res) :
    res.Valid ∧ Satisfies spec res ∧ start.key < res.key ∧
      ∀ dd : DateTime, dd.Valid → Satisfies spec dd → start.key < dd.key →
        res.key ≤ dd.key := by
  have hne := hok.2.2.2.2.1
  rw [getMatch_eq_aux spec start fuel hne] at h
  refine getMatchAux_sound spec start hok hsv _
    (List.sorted_insertionSort _ _) (fun x => List.mem_insertionSort _)
    (sortedMonths_ne_nil hne) fuel _ res (genInv_init _ _ _) ?_ ?_ ?_ h
  · show start.month - 1 ≤ 12
    have := hsv.2.2.1
    omega
  · show start.month ≤ 12 * 0 + (start.month - 1) + 1
    have := hsv.2.1
    omega
  · intro dd hdv hsat hkey
    show 12 * 0 + (start.month - 1) < 12 * (dd.year - start.year) + dd.month
    obtain ⟨-, h2⟩ := monthpos_of_key_lt hsv hdv hkey
    have := hsv.2.1
    omega

/-- When some valid satisfying datetime lies strictly after `start`,
`GetMatch` (with enough fuel) returns the earliest one. -/
theorem getMatch_earliest (spec : SpecificTimeSpecification)
    (start : DateTime) (hok : SpecOK spec) (hsv : start.Valid)
    (hfeas : ∃ dd : DateTime, dd.Valid ∧ Satisfies spec dd ∧
      start.key < dd.key) :
    ∃ fuel res, spec.GetMatch start fuel = .ok res ∧ res.Valid ∧
      Satisfies spec res ∧ start.key < res.key ∧
      ∀ dd : DateTime, dd.Valid → Satisfies spec dd → start.key < dd.key →
        res.key ≤ dd.key := by
  obtain ⟨dd, hdv, hsat, hkey⟩ := hfeas
  have hne := hok.2.2.2.2.1
  have hms_sorted : List.Sorted (· ≤ ·) (spec.months.insertionSort (· ≤ ·)) :=
    List.sorted_insertionSort _ _
  have hms_mem : ∀ x, x ∈ spec.months.insertionSort (· ≤ ·) ↔
      x ∈ spec.months := fun x => List.mem_insertionSort _
  have hms_ne := sortedMonths_ne_nil hne
  have hms_range : ∀ x ∈ spec.months.insertionSort (· ≤ ·),
      1 ≤ x ∧ x ≤ 12 := fun x hx => hok.2.2.1 x ((hms_mem x).mp hx)
  have hmt : dd.month ∈ spec.months.insertionSort (· ≤ ·) :=
    (hms_mem dd.month).mpr hsat.1
  obtain ⟨-, hmge⟩ := monthpos_of_key_lt hsv hdv hkey
  have hstart1 := hsv.2.1
  have hq0lt : 12 * 0 + (start.month - 1) <
      12 * (dd.year - start.year) + dd.month := by omega
  have hq0le := monthSucc_noskip (spec.months.insertionSort (· ≤ ·))
    hms_sorted hms_ne hms_range (a := start.month - 1) (w := 0) hmt hq0lt
  obtain ⟨n, hn⟩ := monthIter_reach (spec.months.insertionSort (· ≤ ·))
    hms_sorted hms_ne hms_range hmt
    (12 * (dd.year - start.year) + dd.month)
    (monthSucc (spec.months.insertionSort (· ≤ ·)) (start.month - 1) 0)
    (monthSucc_spec _ hms_sorted hms_ne _ _).1 hq0le (by omega)
  obtain ⟨res, hres⟩ := getMatchAux_complete spec start hok hsv _
    hms_sorted hms_mem hms_ne (n + 1)
    ⟨spec.months.insertionSort (· ≤ ·), start.month - 1, 0⟩ dd
    (genInv_init _ _ _) hdv hsat hkey ⟨n, by omega, hn⟩
  refine ⟨n + 1, res, ?_, ?_⟩
  · rw [getMatch_eq_aux spec start (n + 1) hne]
    exact hres
  · have := getMatch_sound spec start hok hsv (n + 1) res
      (by rw [getMatch_eq_aux spec start (n + 1) hne]; exact hres)
    exact this

end Groc

namespace Groc

/-! ## The `_MatchingDays` refinement (spec formula side) -/

/-- The ordinal-weekday day function is injective for weekdays in
range. -/
theorem ordinalWeekdayDay_inj {y m o w o2 w2 : Nat} (hw : w ≤ 6)
    (hw2 : w2 ≤ 6)
    (h : ordinalWeekdayDay y m o w = ordinalWeekdayDay y m o2 w2) :
    o = o2 ∧ w = w2 := by
  unfold ordinalWeekdayDay at h
  omega

/-- The day list the spec describes: collect the formula over all
ordinal/weekday pairs, discard days beyond the month's last day, sort
ascending, deduplicate. -/
def specMatchingDays (ordinals weekdays : List Nat) (y m : Nat) :
    List Int :=
  (((ordinals.flatMap (fun (o : Nat) => weekdays.map (fun (w : Nat) =>
        ordinalWeekdayDay y m o w))).filter
      (fun d => decide (d ≤ (monthLen y m : Int)))).insertionSort
    (· ≤ ·)).dedup

theorem mem_specMatchingDays {ordinals weekdays : List Nat} {y m : Nat}
    {d : Int} :
    d ∈ specMatchingDays ordinals weekdays y m ↔
      ∃ o ∈ ordinals, ∃ w ∈ weekdays,
        d = ordinalWeekdayDay y m o w ∧ d ≤ (monthLen y m : Int) := by
  unfold specMatchingDays
  rw [List.mem_dedup, List.mem_insertionSort, List.mem_filter,
    List.mem_flatMap]
  constructor
  · rintro ⟨⟨o, ho, hmem⟩, hle⟩
    obtain ⟨w, hw, hfw⟩ := List.mem_map.mp hmem
    exact ⟨o, ho, w, hw, hfw.symm, by simpa using hle⟩
  · rintro ⟨o, ho, w, hw, hd, hle⟩
    exact ⟨⟨o, ho, List.mem_map.mpr ⟨w, hw, hd.symm⟩⟩, by simpa using hle⟩

theorem specMatchingDays_sorted (ordinals weekdays : List Nat)
    (y m : Nat) :
    List.Sorted (· ≤ ·) (specMatchingDays ordinals weekdays y m) :=
  (List.sorted_insertionSort _ _).sublist (List.dedup_sublist _)

theorem specMatchingDays_nodup (ordinals weekdays : List Nat)
    (y m : Nat) : (specMatchingDays ordinals weekdays y m).Nodup :=
  List.nodup_dedup _

/-- The code's day expression in `_MatchingDays`, as a named
function. -/
def mdDay (y m o w : Nat) : Int :=
  ((w : Int) - (((weekdayMon0 y m 1 + 1) % 7 : Nat) : Int)) % 7 + 1 +
    7 * ((o : Int) - 1)

theorem mdDay_eq (y m o w : Nat) : mdDay y m o w = ordinalWeekdayDay y m o w := by
  unfold mdDay ordinalWeekdayDay
  rw [startDay_eq_weekdaySun0]

/-- `_MatchingDays` through the named day function. -/
theorem MatchingDays_eq_structure (ordinals weekdays : List Nat)
    (y m : Nat) :
    MatchingDays ordinals weekdays y m =
      (ordinals.flatMap (fun (o : Nat) => weekdays.filterMap
        (fun (w : Nat) => if mdDay y m o w ≤ (monthLen y m : Int) then
          some (mdDay y m o w) else none))).insertionSort (· ≤ ·) := rfl

theorem nodup_filterMap_of_memInj (l : List Nat) (f : Nat → Option Int)
    (hl : l.Nodup)
    (hinj : ∀ a ∈ l, ∀ a2 ∈ l, ∀ b, b ∈ f a → b ∈ f a2 → a = a2) :
    (l.filterMap f).Nodup := by
  induction l with
  | nil => simp
  | cons x xs ih =>
    rw [List.filterMap_cons]
    obtain ⟨hx, hxs⟩ := List.nodup_cons.mp hl
    have hinj2 : ∀ a ∈ xs, ∀ a2 ∈ xs, ∀ b, b ∈ f a → b ∈ f a2 → a = a2 :=
      fun a ha a2 ha2 b hb hb2 =>
        hinj a (List.mem_cons_of_mem x ha) a2 (List.mem_cons_of_mem x ha2)
          b hb hb2
    cases hfx : f x with
    | none => exact ih hxs hinj2
    | some b =>
      rw [List.nodup_cons]
      refine ⟨?_, ih hxs hinj2⟩
      intro hbmem
      obtain ⟨a, ha, hfa⟩ := List.mem_filterMap.mp hbmem
      have : x = a := hinj x (List.mem_cons_self x xs) a
        (List.mem_cons_of_mem x ha) b (by rw [hfx]; rfl)
        (by rw [hfa]; rfl)
      rw [this] at hx
      exact hx ha

theorem mem_mdDay_filterMap {weekdays : List Nat} {y m o : Nat} {b : Int} :
    b ∈ weekdays.filterMap (fun (w : Nat) =>
        if mdDay y m o w ≤ (monthLen y m : Int) then some (mdDay y m o w)
        else none) ↔
      ∃ w ∈ weekdays, b = mdDay y m o w ∧
        mdDay y m o w ≤ (monthLen y m : Int) := by
  rw [List.mem_filterMap]
  constructor
  · rintro ⟨w, hw, hfw⟩
    split_ifs at hfw with hle
    exact ⟨w, hw, (Option.some_inj.mp hfw).symm, hle⟩
  · rintro ⟨w, hw, hb, hle⟩
    refine ⟨w, hw, ?_⟩
    rw [if_pos hle, hb]

/-- For in-range weekday sets, `_MatchingDays` produces no duplicate
days. -/
theorem MatchingDays_nodup {ordinals weekdays : List Nat} {y m : Nat}
    (hno : ordinals.Nodup) (hnw : weekdays.Nodup)
    (hw : ∀ w ∈ weekdays, w ≤ 6) :
    (MatchingDays ordinals weekdays y m).Nodup := by
  rw [MatchingDays_eq_structure]
  apply (List.perm_insertionSort _ _).nodup_iff.mpr
  rw [List.nodup_flatMap]
  have hval : ∀ (o : Nat), ∀ w ∈ weekdays, ∀ b : Int,
      b ∈ (if mdDay y m o w ≤ (monthLen y m : Int)
        then some (mdDay y m o w) else none) → b = mdDay y m o w := by
    intro o w _ b hb
    split_ifs at hb with h
    · exact (by simpa using hb : mdDay y m o w = b).symm
    · exact absurd hb (by simp)
  constructor
  · intro o _
    apply nodup_filterMap_of_memInj _ _ hnw
    intro a ha a2 ha2 b hb hb2
    have h1 := hval o a ha b hb
    have h2 := hval o a2 ha2 b hb2
    have h3 : mdDay y m o a = mdDay y m o a2 := h1.symm.trans h2
    rw [mdDay_eq, mdDay_eq] at h3
    exact (ordinalWeekdayDay_inj (hw a ha) (hw a2 ha2) h3).2
  · refine hno.imp ?_
    intro o o2 hne b hb hb2
    obtain ⟨w, hwm, hb3, -⟩ := mem_mdDay_filterMap.mp hb
    obtain ⟨w2, hwm2, hb4, -⟩ := mem_mdDay_filterMap.mp hb2
    have h3 : mdDay y m o w = mdDay y m o2 w2 := by
      rw [← hb3, ← hb4]
    rw [mdDay_eq, mdDay_eq] at h3
    exact hne (ordinalWeekdayDay_inj (hw w hwm) (hw w2 hwm2) h3).1

/-- `_MatchingDays` computes exactly the sorted, duplicate-free list of
the spec's ordinal-weekday formula values. -/
theorem matchingDays_eq_spec {ordinals weekdays : List Nat} {y m : Nat}
    (hno : ordinals.Nodup) (hnw : weekdays.Nodup)
    (hw : ∀ w ∈ weekdays, w ≤ 6) :
    MatchingDays ordinals weekdays y m =
      specMatchingDays ordinals weekdays y m := by
  apply List.eq_of_perm_of_sorted (r := (· ≤ ·))
  · apply (List.perm_ext_iff_of_nodup (MatchingDays_nodup hno hnw hw)
      (specMatchingDays_nodup _ _ _ _)).mpr
    intro d
    rw [mem_MatchingDays, mem_specMatchingDays]
  · exact MatchingDays_sorted _ _ _ _
  · exact specMatchingDays_sorted _ _ _ _

end Groc

namespace Groc

/-! ## Termination support (no `monthdays`, ordinal 1 configured) -/

theorem dayMatchesRaw_eq_matching {spec : SpecificTimeSpecification}
    (hmd : spec.monthdays = []) (y m : Nat) :
    dayMatchesRaw spec y m =
      MatchingDays spec.ordinals spec.weekdays y m := by
  unfold dayMatchesRaw
  rw [if_neg (by simp [hmd])]

/-- With no monthdays, ordinal 1 configured and a non-empty weekday
set, `GetMatch` returns within two candidate months. -/
theorem getMatch_fuel_two (spec : SpecificTimeSpecification)
    (start : DateTime) (hok : SpecOK spec) (hsv : start.Valid)
    (hmd : spec.monthdays = []) (h1 : 1 ∈ spec.ordinals)
    (hwne : spec.weekdays ≠ []) :
    ∃ res, spec.GetMatch start 2 = .ok res := by
  have hne := hok.2.2.2.2.1
  have hms_sorted : List.Sorted (· ≤ ·) (spec.months.insertionSort (· ≤ ·)) :=
    List.sorted_insertionSort _ _
  have hms_mem : ∀ x, x ∈ spec.months.insertionSort (· ≤ ·) ↔
      x ∈ spec.months := fun x => List.mem_insertionSort _
  have hms_ne := sortedMonths_ne_nil hne
  have hms_range : ∀ x ∈ spec.months.insertionSort (· ≤ ·),
      1 ≤ x ∧ x ≤ 12 := fun x hx => hok.2.2.1 x ((hms_mem x).mp hx)
  rw [getMatch_eq_aux spec start 2 hne]
  obtain ⟨hq1, hq2, hq3, hq4⟩ := nextMonthStep_spec
    (spec.months.insertionSort (· ≤ ·))
    ⟨spec.months.insertionSort (· ≤ ·), start.month - 1, 0⟩
    (genInv_init _ _ _)
  have hq1a : (nextMonthStep (spec.months.insertionSort (· ≤ ·))
      ⟨spec.months.insertionSort (· ≤ ·), start.month - 1, 0⟩).1 =
      monthSucc (spec.months.insertionSort (· ≤ ·)) (start.month - 1) 0 := hq1
  set q1 := monthSucc (spec.months.insertionSort (· ≤ ·)) (start.month - 1) 0
    with hq1def
  cases hdm1 : candidateDayList spec start q1.1 q1.2 with
  | cons d rest =>
    refine ⟨⟨start.year + q1.2, q1.1, d.toNat, spec.time.hour,
      spec.time.minute, 0, 0⟩, ?_⟩
    rw [show (2 : Nat) = 1 + 1 from rfl, getMatchAux_step, hq1a, hdm1]
  | nil =>
    obtain ⟨hr1, hr2, hr3, hr4⟩ := nextMonthStep_spec
      (spec.months.insertionSort (· ≤ ·))
      (nextMonthStep (spec.months.insertionSort (· ≤ ·))
        ⟨spec.months.insertionSort (· ≤ ·), start.month - 1, 0⟩).2 hq4
    have hr1a : (nextMonthStep (spec.months.insertionSort (· ≤ ·))
        (nextMonthStep (spec.months.insertionSort (· ≤ ·))
          ⟨spec.months.insertionSort (· ≤ ·), start.month - 1, 0⟩).2).1 =
        monthSucc (spec.months.insertionSort (· ≤ ·)) q1.1 q1.2 := by
      rw [hr1, hq2, hq3, hq1a]
    set q2 := monthSucc (spec.months.insertionSort (· ≤ ·)) q1.1 q1.2
      with hq2def
    have hq1mem : q1.1 ∈ spec.months.insertionSort (· ≤ ·) :=
      (monthSucc_spec _ hms_sorted hms_ne _ _).1
    have hg1 : 12 * 0 + (start.month - 1) < 12 * q1.2 + q1.1 := by
      rw [hq1def]
      exact monthSucc_key_gt _ hms_sorted hms_ne hms_range
        (by have := hsv.2.2.1; omega)
    have hg2 : 12 * q1.2 + q1.1 < 12 * q2.2 + q2.1 := by
      rw [hq2def]
      exact monthSucc_key_gt _ hms_sorted hms_ne hms_range
        (hms_range _ hq1mem).2
    have hcand : candidateDayList spec start q2.1 q2.2 =
        dayMatchesRaw spec (start.year + q2.2) q2.1 := by
      unfold candidateDayList
      rw [if_neg]
      rintro ⟨ha, hb⟩
      have hsm := hsv.2.1
      omega
    have hmne : dayMatchesRaw spec (start.year + q2.2) q2.1 ≠ [] := by
      rw [dayMatchesRaw_eq_matching hmd]
      exact MatchingDays_ne_nil h1 hwne
    obtain ⟨d, rest, hdr⟩ :
        ∃ d rest, candidateDayList spec start q2.1 q2.2 = d :: rest := by
      rw [hcand]
      cases hcase : dayMatchesRaw spec (start.year + q2.2) q2.1 with
      | nil => exact absurd hcase hmne
      | cons d rest => exact ⟨d, rest, rfl⟩
    refine ⟨⟨start.year + q2.2, q2.1, d.toNat, spec.time.hour,
      spec.time.minute, 0, 0⟩, ?_⟩
    rw [show (2 : Nat) = 1 + 1 from rfl, getMatchAux_step, hq1a, hdm1,
      show (1 : Nat) = 0 + 1 from rfl, getMatchAux_step, hr1a, hdr]

/-! ## The yield sequence of `_NextMonthGenerator` -/

/-- The generator created by `GetMatch`: seeded with the sorted month
list, `after = startMonth - 1`, `wrapcount = 0`; `genYields n` is the
generator state and yielded pair of the `n`-th `next()` call. -/
def genYields (ms : List Nat) (startMonth : Nat) :
    Nat → (Nat × Nat) × MonthGenState
  | 0 => nextMonthStep ms ⟨ms, startMonth - 1, 0⟩
  | n + 1 => nextMonthStep ms (genYields ms startMonth n).2

theorem genYields_spec (ms : List Nat) (sm : Nat) :
    ∀ n, (genYields ms sm n).1 = monthIter ms (monthSucc ms (sm - 1) 0) n ∧
      GenInv ms (genYields ms sm n).2 ∧
      (genYields ms sm n).2.after = (genYields ms sm n).1.1 ∧
      (genYields ms sm n).2.wrapcount = (genYields ms sm n).1.2 := by
  intro n
  induction n with
  | zero =>
    obtain ⟨h1, h2, h3, h4⟩ := nextMonthStep_spec ms ⟨ms, sm - 1, 0⟩
      (genInv_init _ _ _)
    exact ⟨h1, h4, h2, h3⟩
  | succ k ih =>
    obtain ⟨ih1, ih2, ih3, ih4⟩ := ih
    obtain ⟨h1, h2, h3, h4⟩ := nextMonthStep_spec ms (genYields ms sm k).2 ih2
    refine ⟨?_, h4, h2, h3⟩
    show (nextMonthStep ms (genYields ms sm k).2).1 =
      monthIter ms (monthSucc ms (sm - 1) 0) (k + 1)
    rw [h1, ih3, ih4, ih1]
    rfl

end Groc

namespace Groc

/-! ## The interval variant and the sequence generator -/

/-- The validity invariant of a parsed specification, per variant. -/
def TimeSpecificationOK : TimeSpecification → Prop
  | .interval i => 0 < i.interval
  | .specific s => SpecOK s

/-- `IntervalTimeSpecification.GetMatch` shifts the instant by exactly
the configured duration (hours being 60 minutes) and preserves
validity. -/
theorem interval_getMatch_instant (i : IntervalTimeSpecification)
    (t : DateTime) (hv : t.Valid) :
    (i.GetMatch t).Valid ∧
      (i.GetMatch t).instant = t.instant +
        (if i.period = HOURS then i.interval * 60 else i.interval) *
          60000000 := by
  unfold IntervalTimeSpecification.GetMatch
  split
  · have h := addMinutes_instant t (i.interval * 60) hv
    exact ⟨h.2, h.1⟩
  · have h := addMinutes_instant t i.interval hv
    exact ⟨h.2, h.1⟩

/-- Every successful `GetMatch` of either variant returns a valid
datetime strictly after its input. -/
theorem ts_getMatch_sound (ts : TimeSpecification)
    (hts : TimeSpecificationOK ts) (t : DateTime) (hv : t.Valid)
    (fuel : Nat) (res : DateTime) (h : ts.GetMatch t fuel = .ok res) :
    res.Valid ∧ t.key < res.key := by
  cases ts with
  | interval i =>
    have hres : res = i.GetMatch t := (Except.ok.inj h).symm
    obtain ⟨hval, hinst⟩ := interval_getMatch_instant i t hv
    have hpos : 0 < i.interval := hts
    subst hres
    refine ⟨hval, DateTime.key_lt_of_instant_lt hv hval ?_⟩
    rw [hinst]
    split <;> omega
  | specific s =>
    obtain ⟨hval, -, hlt, -⟩ := getMatch_sound s t hts hv fuel res h
    exact ⟨hval, hlt⟩

/-- `GetMatches` produces exactly `n` results, each valid, forming a
strictly increasing chain starting after `start`. -/
theorem getMatches_spec (ts : TimeSpecification)
    (hts : TimeSpecificationOK ts) :
    ∀ (n : Nat) (start : DateTime), start.Valid → ∀ (fuel : Nat)
      (l : List DateTime), ts.GetMatches start n fuel = .ok l →
      l.length = n ∧ List.Chain (fun a b => a.key < b.key) start l ∧
        ∀ d ∈ l, d.Valid := by
  intro n
  induction n with
  | zero =>
    intro start hsv fuel l h
    have hl : l = [] := (Except.ok.inj h).symm
    subst hl
    exact ⟨rfl, List.Chain.nil, by simp⟩
  | succ k ih =>
    intro start hsv fuel l h
    unfold TimeSpecification.GetMatches at h
    cases hm : ts.GetMatch start fuel with
    | error e =>
      rw [hm] at h
      exact absurd h (by simp)
    | ok d =>
      rw [hm] at h
      dsimp only at h
      cases hr : ts.GetMatches d k fuel with
      | error e =>
        rw [hr] at h
        exact absurd h (by simp)
      | ok rest =>
        rw [hr] at h
        have hl : l = d :: rest := (Except.ok.inj h).symm
        subst hl
        obtain ⟨hdval, hdlt⟩ := ts_getMatch_sound ts hts start hsv fuel d hm
        obtain ⟨hlen, hchain, hall⟩ := ih d hdval fuel rest hr
        refine ⟨by simp [hlen], List.Chain.cons hdlt hchain, ?_⟩
        intro x hx
        rcases List.mem_cons.mp hx with hx | hx
        · rw [hx]
          exact hdval
        · exact hall x hx

/-- `GetMatches` with `n = 0` returns the empty list. -/
theorem getMatches_zero (ts : TimeSpecification) (start : DateTime)
    (fuel : Nat) : ts.GetMatches start 0 fuel = .ok [] := rfl

end Groc

namespace Groc

/-! ## The DST recovery probe loop -/

/-- The `j`-th probe candidate: `out` after `j` probe steps. -/
def probeSeq (out : DateTime) : Nat → DateTime
  | 0 => out
  | j + 1 => probeStep (probeSeq out j)

/-- One-step unfolding of `probeLoop`. -/
theorem probeLoop_succ (tz : PyTimezone) (out : DateTime) (n : Nat) :
    probeLoop tz out (n + 1) =
      match tz.localize (probeStep out) with
      | .ok z => .ok z.utcDT
      | .error .nonExistent => probeLoop tz (probeStep out) n
      | .error .indexError => probeLoop tz (probeStep out) n
      | .error e => .error (.uncaughtLocalize e) := rfl

/-- Probing from `probeStep out` is probing from `out` one index later. -/
theorem probeSeq_shift (out : DateTime) :
    ∀ j, probeSeq (probeStep out) j = probeSeq out (j + 1) := by
  intro j
  induction j with
  | zero => rfl
  | succ i ih =>
    show probeStep (probeSeq (probeStep out) i) =
      probeStep (probeSeq out (i + 1))
    rw [ih]

/-- `nextDay` leaves the minute field unchanged. -/
theorem nextDay_minute (d : DateTime) : (nextDay d).minute = d.minute := by
  unfold nextDay
  split
  · rfl
  · split <;> rfl

/-- `addDays` leaves the minute field unchanged. -/
theorem addDays_minute : ∀ (n : Nat) (d : DateTime),
    (addDays d n).minute = d.minute := by
  intro n
  induction n with
  | zero => intro d; rfl
  | succ k ih =>
    intro d
    show (addDays (nextDay d) k).minute = d.minute
    rw [ih, nextDay_minute]

/-- The minute field of `d + timedelta(minutes=k)`. -/
theorem addMinutes_minute (d : DateTime) (k : Nat) :
    (addMinutes d k).minute = (d.minute + k) % 60 := by
  show (addDays
      { d with
        minute := (d.minute + k) % 60,
        hour := (d.hour + (d.minute + k) / 60) % 24 }
      ((d.hour + (d.minute + k) / 60) / 24)).minute = (d.minute + k) % 60
  rw [addDays_minute]

/-- Every probe candidate has minute `1`: the probe first replaces the
minute with `1` and then adds a whole number of hours. -/
theorem probeStep_minute (out : DateTime) : (probeStep out).minute = 1 := by
  unfold probeStep
  rw [addMinutes_minute]
  show (1 + 60) % 60 = 1
  rfl

/-- If the probes `1 .. k-1` all fail with a caught exception and probe
`k ≤ n` localizes, `probeLoop` returns the UTC conversion of probe `k`. -/
theorem probeLoop_first_ok :
    ∀ (n k : Nat) (tz : PyTimezone) (out : DateTime) (z : Localized),
    1 ≤ k → k ≤ n →
    (∀ i, 1 ≤ i → i < k → ∃ e, tz.localize (probeSeq out i) = .error e ∧
      (e = LocalizeError.nonExistent ∨ e = LocalizeError.indexError)) →
    tz.localize (probeSeq out k) = .ok z →
    probeLoop tz out n = .ok z.utcDT := by
  intro n
  induction n with
  | zero => intro k tz out z hk1 hk2 _ _; omega
  | succ m ih =>
    intro k tz out z hk1 hk2 hfail hok
    rw [probeLoop_succ]
    cases k with
    | zero => omega
    | succ k0 =>
      cases k0 with
      | zero =>
        rw [show probeStep out = probeSeq out 1 from rfl, hok]
      | succ k1 =>
        obtain ⟨e, he, hor⟩ := hfail 1 (by omega) (by omega)
        rw [show probeSeq out 1 = probeStep out from rfl] at he
        rw [he]
        have hrec : probeLoop tz (probeStep out) m = .ok z.utcDT := by
          refine ih (k1 + 1) tz (probeStep out) z (by omega) (by omega) ?_ ?_
          · intro i hi1 hi2
            rw [probeSeq_shift]
            exact hfail (i + 1) (by omega) (by omega)
          · rw [probeSeq_shift]
            exact hok
        rcases hor with h1 | h1 <;> rw [h1] <;> exact hrec

/-- If all `n` probes fail with a caught exception, `probeLoop` runs out
of attempts and the naive `astimezone` call errors. -/
theorem probeLoop_exhaust :
    ∀ (n : Nat) (tz : PyTimezone) (out : DateTime),
    (∀ i, 1 ≤ i → i ≤ n → ∃ e, tz.localize (probeSeq out i) = .error e ∧
      (e = LocalizeError.nonExistent ∨ e = LocalizeError.indexError)) →
    probeLoop tz out n = .error .naiveAstimezone := by
  intro n
  induction n with
  | zero => intro tz out _; rfl
  | succ m ih =>
    intro tz out hfail
    rw [probeLoop_succ]
    obtain ⟨e, he, hor⟩ := hfail 1 (by omega) (by omega)
    rw [show probeSeq out 1 = probeStep out from rfl] at he
    rw [he]
    have hrec : probeLoop tz (probeStep out) m = .error .naiveAstimezone := by
      refine ih tz (probeStep out) ?_
      intro i hi1 hi2
      rw [probeSeq_shift]
      exact hfail (i + 1) (by omega) (by omega)
    rcases hor with h1 | h1 <;> rw [h1] <;> exact hrec

/-- Whenever `probeLoop` succeeds, the returned value is the UTC
conversion of some probe candidate whose local minute field is `1`. -/
theorem probeLoop_ok_minute :
    ∀ (n : Nat) (tz : PyTimezone) (out : DateTime) (res : DateTime),
    probeLoop tz out n = .ok res →
    ∃ (j : Nat) (z : Localized), 1 ≤ j ∧ j ≤ n ∧
      tz.localize (probeSeq out j) = .ok z ∧ res = z.utcDT ∧
      (probeSeq out j).minute = 1 := by
  intro n
  induction n with
  | zero =>
    intro tz out res h
    exact absurd h (by simp [probeLoop])
  | succ m ih =>
    intro tz out res h
    rw [probeLoop_succ] at h
    cases hl : tz.localize (probeStep out) with
    | ok z =>
      rw [hl] at h
      refine ⟨1, z, le_refl 1, by omega, hl, ?_, probeStep_minute out⟩
      exact (Except.ok.inj h).symm
    | error e =>
      rw [hl] at h
      cases e with
      | nonExistent =>
        obtain ⟨j, z, hj1, hj2, hz, hres, hmin⟩ := ih tz (probeStep out) res h
        rw [probeSeq_shift] at hz hmin
        exact ⟨j + 1, z, by omega, by omega, hz, hres, hmin⟩
      | indexError =>
        obtain ⟨j, z, hj1, hj2, hz, hres, hmin⟩ := ih tz (probeStep out) res h
        rw [probeSeq_shift] at hz hmin
        exact ⟨j + 1, z, by omega, by omega, hz, hres, hmin⟩
      | ambiguous => exact absurd h (by simp)

/-- A probe candidate is never an exact whole-hour offset of a
candidate whose minute is not `1`: the minute fields differ. -/
theorem probeSeq_ne_hour_offset (out : DateTime) (hm : out.minute ≤ 59)
    (hne : out.minute ≠ 1) (j : Nat) (hj : 1 ≤ j) :
    probeSeq out j ≠ addMinutes out (60 * j) := by
  intro hcontra
  have h1 : (probeSeq out j).minute = 1 := by
    cases j with
    | zero => omega
    | succ i => exact probeStep_minute (probeSeq out i)
  have h2 : (addMinutes out (60 * j)).minute = out.minute := by
    rw [addMinutes_minute]
    omega
  rw [hcontra, h2] at h1
  exact hne h1

/-- On a gap (`NonExistentTimeError`) signal, `resolveTz` runs the
24-bounded probe loop. -/
theorem resolveTz_gap (tz : PyTimezone) (out : DateTime)
    (h : tz.localize out = .error .nonExistent) :
    resolveTz tz out = probeLoop tz out 24 := by
  unfold resolveTz
  rw [h]

/-- On an `IndexError` signal, `resolveTz` runs the probe loop too. -/
theorem resolveTz_indexError (tz : PyTimezone) (out : DateTime)
    (h : tz.localize out = .error .indexError) :
    resolveTz tz out = probeLoop tz out 24 := by
  unfold resolveTz
  rw [h]

/-- An `AmbiguousTimeError` signal is not handled: it escapes the
`except (NonExistentTimeError, IndexError)` clause. -/
theorem resolveTz_ambiguous (tz : PyTimezone) (out : DateTime)
    (h : tz.localize out = .error .ambiguous) :
    resolveTz tz out = .error (.uncaughtLocalize .ambiguous) := by
  unfold resolveTz
  rw [h]

/-- When the candidate localizes directly, its UTC conversion is
returned. -/
theorem resolveTz_ok (tz : PyTimezone) (out : DateTime) (z : Localized)
    (h : tz.localize out = .ok z) : resolveTz tz out = .ok z.utcDT := by
  unfold resolveTz
  rw [h]

/-- The timezone `GetMatch` is the timezone-less search on the
localized start followed by `resolveTz` on the naive candidate. -/
theorem getMatchTz_eq_resolve (spec : SpecificTimeSpecification)
    (tz : PyTimezone) (start : DateTime) (fuel : Nat) (out : DateTime)
    (hm : spec.months ≠ [])
    (ha : GetMatchAux spec (tz.toLocal start)
      (spec.months.insertionSort (· ≤ ·))
      ⟨spec.months.insertionSort (· ≤ ·), (tz.toLocal start).month - 1, 0⟩
      fuel = .ok out) :
    spec.GetMatchTz tz start fuel = resolveTz tz out := by
  unfold SpecificTimeSpecification.GetMatchTz
  rw [if_neg hm, ha]

/-! ## Divergence on an unsatisfiable specification -/

/-- A step lemma for `GetMatchAux` with the generator step given as an
explicit equation. -/
theorem getMatchAux_step_eq (spec : SpecificTimeSpecification)
    (start : DateTime) (ms : List Nat) (gen : MonthGenState) (fuel : Nat)
    (mo w : Nat) (st : MonthGenState)
    (h : nextMonthStep ms gen = ((mo, w), st)) :
    GetMatchAux spec start ms gen (fuel + 1) =
      match candidateDayList spec start mo w with
      | [] => GetMatchAux spec start ms st fuel
      | d :: _ => .ok ⟨start.year + w, mo, d.toNat, spec.time.hour,
          spec.time.minute, 0, 0⟩ := by
  rw [getMatchAux_step, h]

/-- An empty raw day list stays empty after the same-month trim. -/
theorem candidateDayList_nil_of_raw_nil (spec : SpecificTimeSpecification)
    (start : DateTime) (M W : Nat)
    (h : dayMatchesRaw spec (start.year + W) M = []) :
    candidateDayList spec start M W = [] := by
  unfold candidateDayList
  split
  · rw [h]
    rfl
  · exact h

/-- If the single configured month `m` never has a non-empty day list,
the search loop never returns: it cycles through `m` forever.  The
generator state is constrained to the states reachable from the seed
(its `potential` list is a sublist of `[m]`). -/
theorem getMatchAux_diverge (spec : SpecificTimeSpecification)
    (start : DateTime) (m : Nat)
    (hday : ∀ y, dayMatchesRaw spec y m = []) :
    ∀ (fuel : Nat) (s : MonthGenState), s.potential.Sublist [m] →
      GetMatchAux spec start [m] s fuel = .error .fuelOut := by
  intro fuel
  induction fuel with
  | zero => intro s _; rfl
  | succ k ih =>
    intro s hs
    cases hf : s.potential.filter (fun x => decide (s.after < x)) with
    | nil =>
      have hstep : nextMonthStep [m] s =
          ((m, s.wrapcount + 1), ⟨[m], m, s.wrapcount + 1⟩) :=
        nextMonthStep_eq_nil hf
      rw [getMatchAux_step_eq spec start [m] s k m (s.wrapcount + 1)
          ⟨[m], m, s.wrapcount + 1⟩ hstep,
        candidateDayList_nil_of_raw_nil spec start m (s.wrapcount + 1)
          (hday _)]
      exact ih ⟨[m], m, s.wrapcount + 1⟩ (List.Sublist.refl [m])
    | cons x rest =>
      have hsub : (x :: rest).Sublist [m] :=
        hf ▸ ((s.potential.filter_sublist).trans hs)
      have hx : x = m := by
        have hxm := hsub.subset (List.mem_cons_self x rest)
        simpa using hxm
      have hrest : rest = [] := by
        have hlen := hsub.length_le
        simp only [List.length_cons, List.length_nil] at hlen
        exact List.eq_nil_of_length_eq_zero (by omega)
      subst hx
      subst hrest
      have hstep : nextMonthStep [x] s =
          ((x, s.wrapcount), ⟨[x], x, s.wrapcount⟩) :=
        nextMonthStep_eq_cons hf
      rw [getMatchAux_step_eq spec start [x] s k x s.wrapcount
          ⟨[x], x, s.wrapcount⟩ hstep,
        candidateDayList_nil_of_raw_nil spec start x s.wrapcount (hday _)]
      exact ih ⟨[x], x, s.wrapcount⟩ (List.Sublist.refl [x])

/-- A `monthdays` entry above every February length gives an always
empty day list for month `2`. -/
theorem dayMatchesRaw_feb31 (ords wds : List Nat) (t : TimeOfDay)
    (y : Nat) :
    dayMatchesRaw ⟨ords, wds, [2], [31], t⟩ y 2 = [] := by
  unfold dayMatchesRaw
  rw [if_pos (by simp)]
  have hml : monthLen y 2 ≤ 29 := by
    unfold monthLen
    rw [if_pos rfl]
    split <;> omega
  have hno : ¬ (31 ≤ monthLen y 2) := by omega
  simp [List.filter_cons, hno]

/-- The infeasible spec never returns, whatever the fuel. -/
theorem getMatch_diverge_feb31 (ords wds : List Nat) (t : TimeOfDay)
    (start : DateTime) (fuel : Nat) :
    SpecificTimeSpecification.GetMatch ⟨ords, wds, [2], [31], t⟩ start fuel
      = .error .fuelOut := by
  unfold SpecificTimeSpecification.GetMatch
  rw [if_neg (by simp)]
  exact getMatchAux_diverge ⟨ords, wds, [2], [31], t⟩ start 2
    (fun y => dayMatchesRaw_feb31 ords wds t y) fuel
    ⟨[2], start.month - 1, 0⟩ (List.Sublist.refl [2])

end Groc

namespace Groc

/-! ## Remaining support lemmas and concrete schedules -/

instance (ts : TimeSpecification) : Decidable (TimeSpecificationOK ts) := by
  cases ts <;> (unfold TimeSpecificationOK; infer_instance)

/-- When `GetMatch` errors, `GetMatches` propagates the error for every
positive `n`. -/
theorem getMatches_error_of_getMatch_error (ts : TimeSpecification)
    (start : DateTime) (fuel n : Nat) (e : GError)
    (h : ts.GetMatch start fuel = .error e) (hn : 1 ≤ n) :
    ts.GetMatches start n fuel = .error e := by
  cases n with
  | zero => omega
  | succ k =>
    unfold TimeSpecification.GetMatches
    rw [h]

/-- February never reaches 30 days. -/
theorem monthLen_feb_le (y : Nat) : monthLen y 2 ≤ 29 := by
  unfold monthLen
  rw [if_pos rfl]
  split <;> omega

/-- No valid datetime satisfies a schedule demanding day 31 of
February. -/
theorem no_satisfying_feb31 (ords wds : List Nat) (t : TimeOfDay) :
    ¬ ∃ dd : DateTime, dd.Valid ∧
      Satisfies ⟨ords, wds, [2], [31], t⟩ dd := by
  rintro ⟨dd, hv, hsat⟩
  have hm : dd.month = 2 := by
    have h1 := hsat.1
    simpa using h1
  have h2 := hsat.2.1
  unfold SatDay at h2
  rw [if_pos (by simp)] at h2
  have hd : dd.day = 31 := by simpa using h2
  have hbound := hv.2.2.2.2.1
  rw [hm, hd] at hbound
  have := monthLen_feb_le dd.year
  omega

/-- All twelve months, as `__init__` defaults them. -/
def allMonths : List Nat := [1, 2, 3, 4, 5, 6, 7, 8, 9, 10, 11, 12]

/-- `monthdays={31}`, all ordinals/weekdays/months, midnight. -/
def spec31 : SpecificTimeSpecification :=
  ⟨[1, 2, 3, 4, 5], [0, 1, 2, 3, 4, 5, 6], allMonths, [31], ⟨0, 0⟩⟩

/-- First Monday of every month, 09:00. -/
def specMon : SpecificTimeSpecification :=
  ⟨[1], [1], allMonths, [], ⟨9, 0⟩⟩

/-- Fifth Monday of February, 09:00. -/
def specFifth : SpecificTimeSpecification :=
  ⟨[5], [1], [2], [], ⟨9, 0⟩⟩

/-- Day 31 of February: an unsatisfiable schedule. -/
def specFeb31 : SpecificTimeSpecification :=
  ⟨[1, 2, 3, 4, 5], [0, 1, 2, 3, 4, 5, 6], [2], [31], ⟨0, 0⟩⟩

/-- The naive candidate `spec31` produces from 2024-04-01. -/
def gapOut : DateTime := ⟨2024, 5, 31, 0, 0, 0, 0⟩

/-- A timezone whose only gap is exactly at `gapOut`: everything else
localizes to itself. -/
def gapTz : PyTimezone :=
  ⟨fun d => if d = gapOut then .error .nonExistent else .ok ⟨d, d⟩,
    fun d => d⟩

/-- A timezone that reports every local time as ambiguous. -/
def ambTz : PyTimezone :=
  ⟨fun _ => .error .ambiguous, fun d => d⟩

end Groc

namespace Groc

/-! ## The claims -/

/-- C1: Without a timezone, `GetMatch` returns the earliest valid
datetime strictly after `start` that satisfies the specification: its
month is configured, its day is selected by `monthdays` when that set
is non-empty and by the ordinal-weekday rule otherwise, its hour and
minute are the configured time of day, and its seconds and sub-seconds
are zero.  Some amount of search fuel suffices to return, and whatever
any fuel returns is that minimal match.  In particular `monthdays={31}`
with all months at 00:00 maps 2024-04-01T00:00 to 2024-05-31T00:00, and
first-Monday at 09:00 maps 2024-01-01T09:00 to 2024-02-05T09:00. -/
theorem C1_getMatch_earliest (spec : SpecificTimeSpecification)
    (start : DateTime) (hok : SpecOK spec) (hsv : start.Valid)
    (hfeas : ∃ dd : DateTime, dd.Valid ∧ Satisfies spec dd ∧
      start.key < dd.key) :
    (∃ fuel res, spec.GetMatch start fuel = .ok res) ∧
    (∀ fuel res, spec.GetMatch start fuel = .ok res →
      res.Valid ∧ Satisfies spec res ∧ start.key < res.key ∧
      ∀ dd : DateTime, dd.Valid → Satisfies spec dd → start.key < dd.key →
        res.key ≤ dd.key) ∧
    spec31.GetMatch ⟨2024, 4, 1, 0, 0, 0, 0⟩ 5 =
      .ok ⟨2024, 5, 31, 0, 0, 0, 0⟩ ∧
    specMon.GetMatch ⟨2024, 1, 1, 9, 0, 0, 0⟩ 5 =
      .ok ⟨2024, 2, 5, 9, 0, 0, 0⟩ := by
  refine ⟨?_, ?_, by decide, by decide⟩
  · obtain ⟨fuel, res, h, -⟩ := getMatch_earliest spec start hok hsv hfeas
    exact ⟨fuel, res, h⟩
  · intro fuel res h
    exact getMatch_sound spec start hok hsv fuel res h

theorem C1_getMatch_earliest_witness :
    (∃ fuel res, spec31.GetMatch ⟨2024, 4, 1, 0, 0, 0, 0⟩ fuel =
      .ok res) ∧
    (∀ fuel res, spec31.GetMatch ⟨2024, 4, 1, 0, 0, 0, 0⟩ fuel =
        .ok res →
      res.Valid ∧ Satisfies spec31 res ∧
        (⟨2024, 4, 1, 0, 0, 0, 0⟩ : DateTime).key < res.key ∧
      ∀ dd : DateTime, dd.Valid → Satisfies spec31 dd →
        (⟨2024, 4, 1, 0, 0, 0, 0⟩ : DateTime).key < dd.key →
          res.key ≤ dd.key) ∧
    spec31.GetMatch ⟨2024, 4, 1, 0, 0, 0, 0⟩ 5 =
      .ok ⟨2024, 5, 31, 0, 0, 0, 0⟩ ∧
    specMon.GetMatch ⟨2024, 1, 1, 9, 0, 0, 0⟩ 5 =
      .ok ⟨2024, 2, 5, 9, 0, 0, 0⟩ :=
  C1_getMatch_earliest spec31 ⟨2024, 4, 1, 0, 0, 0, 0⟩ (by decide)
    (by decide)
    ⟨⟨2024, 5, 31, 0, 0, 0, 0⟩, by decide, by decide, by decide⟩

/-- C1 counterexample: day 31 of February is a well-formed schedule
that nothing satisfies, and on it `GetMatch` never returns (every
fuel exhausts): the claim's unconditional "returns the earliest
match" fails. -/
theorem C1_counterexample :
    SpecOK specFeb31 ∧
    (∀ fuel, specFeb31.GetMatch ⟨2024, 1, 1, 0, 0, 0, 0⟩ fuel =
      .error .fuelOut) ∧
    ¬ ∃ dd : DateTime, dd.Valid ∧ Satisfies specFeb31 dd := by
  refine ⟨by decide, fun fuel => ?_, ?_⟩
  · exact getMatch_diverge_feb31 [1, 2, 3, 4, 5] [0, 1, 2, 3, 4, 5, 6]
      ⟨0, 0⟩ ⟨2024, 1, 1, 0, 0, 0, 0⟩ fuel
  · exact no_satisfying_feb31 [1, 2, 3, 4, 5] [0, 1, 2, 3, 4, 5, 6] ⟨0, 0⟩

/-- C2: With a timezone, a DST-gap (`NonExistentTimeError`) or
`IndexError` signal at the naive candidate is caught: the code probes
forward in one-hour steps, at most 24 of them, and returns the UTC
conversion of the first probe that localizes; when all 24 probes fail
with caught signals, the still-naive `astimezone` call raises instead.
(An `AmbiguousTimeError` is not handled this way: see the
counterexample.) -/
theorem C2_tz_gap_probe (spec : SpecificTimeSpecification)
    (tz : PyTimezone) (start : DateTime) (fuel : Nat) (out : DateTime)
    (hm : spec.months ≠ [])
    (ha : GetMatchAux spec (tz.toLocal start)
      (spec.months.insertionSort (· ≤ ·))
      ⟨spec.months.insertionSort (· ≤ ·), (tz.toLocal start).month - 1, 0⟩
      fuel = .ok out)
    (hgap : tz.localize out = .error .nonExistent ∨
      tz.localize out = .error .indexError) :
    (∀ (k : Nat) (z : Localized), 1 ≤ k → k ≤ 24 →
      (∀ i, 1 ≤ i → i < k → ∃ e, tz.localize (probeSeq out i) =
          .error e ∧
        (e = LocalizeError.nonExistent ∨ e = LocalizeError.indexError)) →
      tz.localize (probeSeq out k) = .ok z →
      spec.GetMatchTz tz start fuel = .ok z.utcDT) ∧
    ((∀ i, 1 ≤ i → i ≤ 24 → ∃ e, tz.localize (probeSeq out i) =
        .error e ∧
        (e = LocalizeError.nonExistent ∨ e = LocalizeError.indexError)) →
      spec.GetMatchTz tz start fuel = .error .naiveAstimezone) := by
  have heq := getMatchTz_eq_resolve spec tz start fuel out hm ha
  have hres : resolveTz tz out = probeLoop tz out 24 := by
    rcases hgap with h | h
    · exact resolveTz_gap tz out h
    · exact resolveTz_indexError tz out h
  constructor
  · intro k z hk1 hk2 hfail hok
    rw [heq, hres]
    exact probeLoop_first_ok 24 k tz out z hk1 hk2 hfail hok
  · intro hfail
    rw [heq, hres]
    exact probeLoop_exhaust 24 tz out hfail

theorem C2_tz_gap_probe_witness :
    spec31.GetMatchTz gapTz ⟨2024, 4, 1, 0, 0, 0, 0⟩ 5 =
      .ok ⟨2024, 5, 31, 1, 1, 0, 0⟩ :=
  (C2_tz_gap_probe spec31 gapTz ⟨2024, 4, 1, 0, 0, 0, 0⟩ 5 gapOut
      (by decide) (by decide) (Or.inl (by decide))).1 1
    ⟨⟨2024, 5, 31, 1, 1, 0, 0⟩, ⟨2024, 5, 31, 1, 1, 0, 0⟩⟩ (by decide)
    (by decide) (fun i h1 h2 => absurd h1 (by omega)) (by decide)

/-- C2 counterexample: an ambiguous-local-time signal is not caught by
the `except (NonExistentTimeError, IndexError)` clause; it surfaces to
the caller instead of being resolved by probing. -/
theorem C2_counterexample :
    spec31.GetMatchTz ambTz ⟨2024, 4, 1, 0, 0, 0, 0⟩ 5 =
      .error (.uncaughtLocalize .ambiguous) := by decide

/-- C3: (amended) With `monthdays` empty, ordinal 1 configured and a
non-empty weekday set, the search returns within two candidate months:
the ordinal-1 day list of the second candidate month is non-empty and
untrimmed. -/
theorem C3_terminates_ordinal_one (spec : SpecificTimeSpecification)
    (start : DateTime) (hok : SpecOK spec) (hsv : start.Valid)
    (hmd : spec.monthdays = []) (h1 : 1 ∈ spec.ordinals)
    (hw : spec.weekdays ≠ []) :
    ∃ res, spec.GetMatch start 2 = .ok res :=
  getMatch_fuel_two spec start hok hsv hmd h1 hw

theorem C3_terminates_ordinal_one_witness :
    ∃ res, specMon.GetMatch ⟨2024, 1, 1, 9, 0, 0, 0⟩ 2 = .ok res :=
  C3_terminates_ordinal_one specMon ⟨2024, 1, 1, 9, 0, 0, 0⟩ (by decide)
    (by decide) (by decide) (by decide) (by decide)

/-- C3 counterexample: ordinals={5}, weekdays={Monday}, months={2} and
no monthdays - every set non-empty - yet thirteen candidate months (a
full year cycle and one more) from 2024-03-01 produce no match; the
first match is the fifth Monday of February 2044, twenty year-cycles
later, so "a candidate is found within one year-cycle" is false. -/
theorem C3_counterexample :
    SpecOK specFifth ∧ specFifth.monthdays = [] ∧
      specFifth.ordinals ≠ [] ∧ specFifth.weekdays ≠ [] ∧
      specFifth.months ≠ [] ∧
      specFifth.GetMatch ⟨2024, 3, 1, 0, 0, 0, 0⟩ 13 = .error .fuelOut ∧
      specFifth.GetMatch ⟨2024, 3, 1, 0, 0, 0, 0⟩ 25 =
        .ok ⟨2044, 2, 29, 9, 0, 0, 0⟩ := by
  decide

/-- C4: For a sorted non-empty month set with values in 1..12 and a
start month, the generator's yields stay in the set and are strictly
increasing in the key `12 * yearOffset + month`; the first yield is
the least configured month at or after the start month with offset 0,
or the set's minimum with offset 1 when no such month exists; no
configured (month, offset) pair is skipped between consecutive yields;
and every configured pair at or after the first yield is eventually
yielded. -/
theorem C4_month_cycle (ms : List Nat) (sm : Nat)
    (hs : List.Sorted (· ≤ ·) ms) (hne : ms ≠ [])
    (hmem : ∀ x ∈ ms, 1 ≤ x ∧ x ≤ 12) (hsm : 1 ≤ sm) :
    (∀ n, (genYields ms sm n).1.1 ∈ ms) ∧
    (((genYields ms sm 0).1.2 = 0 ∧ sm ≤ (genYields ms sm 0).1.1 ∧
        ∀ x ∈ ms, sm ≤ x → (genYields ms sm 0).1.1 ≤ x) ∨
      ((genYields ms sm 0).1.2 = 1 ∧ (∀ x ∈ ms, x < sm) ∧
        ∀ x ∈ ms, (genYields ms sm 0).1.1 ≤ x)) ∧
    (∀ n, 12 * (genYields ms sm n).1.2 + (genYields ms sm n).1.1 <
      12 * (genYields ms sm (n + 1)).1.2 +
        (genYields ms sm (n + 1)).1.1) ∧
    (∀ n mt wt, mt ∈ ms →
      12 * (genYields ms sm n).1.2 + (genYields ms sm n).1.1 <
        12 * wt + mt →
      12 * (genYields ms sm (n + 1)).1.2 +
          (genYields ms sm (n + 1)).1.1 ≤
        12 * wt + mt) ∧
    (∀ mt wt, mt ∈ ms →
      12 * (genYields ms sm 0).1.2 + (genYields ms sm 0).1.1 ≤
        12 * wt + mt →
      ∃ n, (genYields ms sm n).1 = (mt, wt)) := by
  have hq : ∀ n, (genYields ms sm n).1 =
      monthIter ms (monthSucc ms (sm - 1) 0) n :=
    fun n => (genYields_spec ms sm n).1
  have hq0 : (genYields ms sm 0).1 = monthSucc ms (sm - 1) 0 := hq 0
  have hmem0 : (monthSucc ms (sm - 1) 0).1 ∈ ms :=
    (monthSucc_spec ms hs hne (sm - 1) 0).1
  refine ⟨?_, ?_, ?_, ?_, ?_⟩
  · intro n
    rw [hq n]
    exact monthIter_mem ms hs hne hmem0 n
  · obtain ⟨-, hcase⟩ := monthSucc_spec ms hs hne (sm - 1) 0
    rw [hq0]
    rcases hcase with ⟨hw, hgt, hmin⟩ | ⟨hw, hall, hmin⟩
    · left
      refine ⟨hw, by omega, ?_⟩
      intro x hx hsx
      exact hmin x hx (by omega)
    · right
      refine ⟨hw, ?_, hmin⟩
      intro x hx
      have := hall x hx
      omega
  · intro n
    rw [hq n, hq (n + 1)]
    have hmemn : (monthIter ms (monthSucc ms (sm - 1) 0) n).1 ∈ ms :=
      monthIter_mem ms hs hne hmem0 n
    have hle : (monthIter ms (monthSucc ms (sm - 1) 0) n).1 ≤ 12 :=
      (hmem _ hmemn).2
    show 12 * (monthIter ms (monthSucc ms (sm - 1) 0) n).2 +
        (monthIter ms (monthSucc ms (sm - 1) 0) n).1 <
      12 * (monthSucc ms (monthIter ms (monthSucc ms (sm - 1) 0) n).1
          (monthIter ms (monthSucc ms (sm - 1) 0) n).2).2 +
        (monthSucc ms (monthIter ms (monthSucc ms (sm - 1) 0) n).1
          (monthIter ms (monthSucc ms (sm - 1) 0) n).2).1
    exact monthSucc_key_gt ms hs hne hmem hle
  · intro n mt wt hmt hlt
    rw [hq n] at hlt
    rw [hq (n + 1)]
    show 12 * (monthSucc ms (monthIter ms (monthSucc ms (sm - 1) 0) n).1
          (monthIter ms (monthSucc ms (sm - 1) 0) n).2).2 +
        (monthSucc ms (monthIter ms (monthSucc ms (sm - 1) 0) n).1
          (monthIter ms (monthSucc ms (sm - 1) 0) n).2).1 ≤
      12 * wt + mt
    exact monthSucc_noskip ms hs hne hmem hmt hlt
  · intro mt wt hmt hge
    rw [hq0] at hge
    obtain ⟨n, hn⟩ := monthIter_reach ms hs hne hmem hmt
      (12 * wt + mt - (12 * (monthSucc ms (sm - 1) 0).2 +
        (monthSucc ms (sm - 1) 0).1))
      (monthSucc ms (sm - 1) 0) hmem0 hge (le_refl _)
    refine ⟨n, ?_⟩
    rw [hq n]
    exact hn

theorem C4_month_cycle_witness :
    12 * (genYields [2, 5] 3 0).1.2 + (genYields [2, 5] 3 0).1.1 <
      12 * (genYields [2, 5] 3 1).1.2 + (genYields [2, 5] 3 1).1.1 :=
  (C4_month_cycle [2, 5] 3 (by decide) (by decide) (by decide)
    (by decide)).2.2.1 0

/-- C5: `_MatchingDays` returns exactly the sorted, duplicate-free
list of ordinal-weekday day numbers of the candidate month, any day
past the month's last day discarded: the code's computation equals the
specification's formula `((weekday - firstWeekday) mod 7) + 1 +
7 * (ordinal - 1)` collected over `ordinals × weekdays`. -/
theorem C5_matchingDays_formula (ordinals weekdays : List Nat)
    (y m : Nat) (hno : ordinals.Nodup) (hnw : weekdays.Nodup)
    (hw : ∀ w ∈ weekdays, w ≤ 6) :
    MatchingDays ordinals weekdays y m =
      specMatchingDays ordinals weekdays y m ∧
    List.Sorted (· ≤ ·) (MatchingDays ordinals weekdays y m) ∧
    (MatchingDays ordinals weekdays y m).Nodup ∧
    ∀ d : Int, d ∈ MatchingDays ordinals weekdays y m ↔
      ∃ o ∈ ordinals, ∃ w ∈ weekdays,
        d = ordinalWeekdayDay y m o w ∧ d ≤ (monthLen y m : Int) :=
  ⟨matchingDays_eq_spec hno hnw hw, MatchingDays_sorted _ _ _ _,
    MatchingDays_nodup hno hnw hw, fun d => mem_MatchingDays⟩

theorem C5_matchingDays_formula_witness :
    MatchingDays [1, 2] [0, 1] 2024 2 =
      specMatchingDays [1, 2] [0, 1] 2024 2 :=
  (C5_matchingDays_formula [1, 2] [0, 1] 2024 2 (by decide) (by decide)
    (by decide)).1

/-- C6: (amended) Whenever `GetMatches` returns, it returns exactly
`n` valid datetimes forming a strictly increasing chain above `start`
- each result fed back as the next start - and `n = 0` gives the empty
sequence.  (For an unsatisfiable specific schedule it never returns:
see the counterexample.) -/
theorem C6_getMatches_chain (ts : TimeSpecification)
    (hts : TimeSpecificationOK ts) (n : Nat) (start : DateTime)
    (hsv : start.Valid) (fuel : Nat) (l : List DateTime)
    (h : ts.GetMatches start n fuel = .ok l) :
    l.length = n ∧ List.Chain (fun a b => a.key < b.key) start l ∧
      (∀ d ∈ l, d.Valid) ∧ ts.GetMatches start 0 fuel = .ok [] := by
  obtain ⟨h1, h2, h3⟩ := getMatches_spec ts hts n start hsv fuel l h
  exact ⟨h1, h2, h3, rfl⟩

theorem C6_getMatches_chain_witness :
    ([⟨2024, 1, 1, 0, 20, 0, 0⟩, ⟨2024, 1, 1, 0, 40, 0, 0⟩] :
        List DateTime).length = 2 ∧
      List.Chain (fun a b => a.key < b.key)
        (⟨2024, 1, 1, 0, 0, 0, 0⟩ : DateTime)
        ([⟨2024, 1, 1, 0, 20, 0, 0⟩, ⟨2024, 1, 1, 0, 40, 0, 0⟩] :
          List DateTime) ∧
      (∀ d ∈ ([⟨2024, 1, 1, 0, 20, 0, 0⟩, ⟨2024, 1, 1, 0, 40, 0, 0⟩] :
        List DateTime), d.Valid) ∧
      TimeSpecification.GetMatches (.interval ⟨20, MINUTES⟩)
        ⟨2024, 1, 1, 0, 0, 0, 0⟩ 0 1 = .ok [] :=
  C6_getMatches_chain (.interval ⟨20, MINUTES⟩) (by decide) 2
    ⟨2024, 1, 1, 0, 0, 0, 0⟩ (by decide) 1
    [⟨2024, 1, 1, 0, 20, 0, 0⟩, ⟨2024, 1, 1, 0, 40, 0, 0⟩] (by decide)

/-- C6 counterexample: on the unsatisfiable day-31-of-February
schedule, `GetMatches(start, 1)` never produces its sequence - the
underlying `GetMatch` loops - although the schedule is well-formed. -/
theorem C6_counterexample :
    TimeSpecificationOK (.specific specFeb31) ∧
    ∀ fuel, TimeSpecification.GetMatches (.specific specFeb31)
      ⟨2024, 1, 1, 0, 0, 0, 0⟩ 1 fuel = .error .fuelOut := by
  refine ⟨by decide, fun fuel => ?_⟩
  apply getMatches_error_of_getMatch_error
  · exact getMatch_diverge_feb31 [1, 2, 3, 4, 5] [0, 1, 2, 3, 4, 5, 6]
      ⟨0, 0⟩ ⟨2024, 1, 1, 0, 0, 0, 0⟩ fuel
  · omega

/-- C7: The interval variant is pure clock arithmetic: `GetMatch`
advances the instant by exactly `interval` hours when the unit is
HOURS and by exactly `interval` minutes otherwise, preserving
validity; in particular a 20-minute interval adds exactly 20 minutes
to every valid datetime. -/
theorem C7_interval_arithmetic (i : IntervalTimeSpecification)
    (t : DateTime) (hpos : 0 < i.interval) (hv : t.Valid) :
    (i.GetMatch t).Valid ∧
    (i.GetMatch t).instant = t.instant +
      (if i.period = HOURS then i.interval * 60 else i.interval) *
        60000000 ∧
    ∀ s : DateTime, s.Valid →
      (IntervalTimeSpecification.GetMatch ⟨20, MINUTES⟩ s).instant =
        s.instant + 20 * 60000000 := by
  obtain ⟨h1, h2⟩ := interval_getMatch_instant i t hv
  refine ⟨h1, h2, ?_⟩
  intro s hsv
  have h3 := (interval_getMatch_instant ⟨20, MINUTES⟩ s hsv).2
  rw [if_neg (by decide)] at h3
  exact h3

theorem C7_interval_arithmetic_witness :
    (IntervalTimeSpecification.GetMatch ⟨20, MINUTES⟩
        ⟨2024, 1, 1, 0, 0, 0, 0⟩).instant =
      (⟨2024, 1, 1, 0, 0, 0, 0⟩ : DateTime).instant + 20 * 60000000 :=
  (C7_interval_arithmetic ⟨20, MINUTES⟩ ⟨2024, 1, 1, 0, 0, 0, 0⟩
    (by decide) (by decide)).2.2 ⟨2024, 1, 1, 0, 0, 0, 0⟩ (by decide)

/-- C8: Supplying both `weekdays` and `monthdays` to the constructor
fails with the validation error and produces no instance; otherwise
construction succeeds and omitted arguments take their defaults:
ordinals {1..5}, weekdays {0..6}, months {1..12}, monthdays empty,
time 00:00. -/
theorem C8_init_validation (ordinals weekdays months monthdays :
    Option (List Nat)) (timestr : Option TimeOfDay)
    (w0 m0 : List Nat) :
    SpecificTimeSpecification.init ordinals (some w0) months (some m0)
      timestr = .error "cant supply both monthdays and weekdays" ∧
    (¬(weekdays.isSome ∧ monthdays.isSome) →
      SpecificTimeSpecification.init ordinals weekdays months monthdays
        timestr = .ok ⟨ordinals.getD (List.range' 1 5),
          weekdays.getD (List.range 7), months.getD (List.range' 1 12),
          monthdays.getD [], timestr.getD ⟨0, 0⟩⟩) ∧
    SpecificTimeSpecification.init none none none none none =
      .ok ⟨[1, 2, 3, 4, 5], [0, 1, 2, 3, 4, 5, 6], allMonths, [],
        ⟨0, 0⟩⟩ := by
  refine ⟨?_, ?_, by decide⟩
  · unfold SpecificTimeSpecification.init
    rw [if_pos ⟨rfl, rfl⟩]
  · intro hno
    unfold SpecificTimeSpecification.init
    rw [if_neg hno]

/-- C9: Every forward probe first replaces the candidate's minute with
1 and then adds 60 minutes: all probe candidates have local minute 1,
a successful probe loop returns the UTC conversion of a probe whose
local minute is 1 - not the configured minute - and when the original
candidate's minute is not 1 no probe is an exact whole-hour offset of
it. -/
theorem C9_probe_minute_one (tz : PyTimezone) (out res : DateTime)
    (n : Nat) (hm : out.minute ≤ 59) (hne : out.minute ≠ 1)
    (h : probeLoop tz out n = .ok res) :
    (∀ j, 1 ≤ j → (probeSeq out j).minute = 1) ∧
    (∃ j z, 1 ≤ j ∧ j ≤ n ∧ tz.localize (probeSeq out j) = .ok z ∧
      res = z.utcDT ∧ (probeSeq out j).minute = 1) ∧
    (∀ j, 1 ≤ j → probeSeq out j ≠ addMinutes out (60 * j)) := by
  refine ⟨?_, probeLoop_ok_minute n tz out res h, ?_⟩
  · intro j hj
    cases j with
    | zero => omega
    | succ i => exact probeStep_minute (probeSeq out i)
  · intro j hj
    exact probeSeq_ne_hour_offset out hm hne j hj

theorem C9_probe_minute_one_witness :
    probeSeq gapOut 1 ≠ addMinutes gapOut (60 * 1) :=
  (C9_probe_minute_one gapTz gapOut ⟨2024, 5, 31, 1, 1, 0, 0⟩ 24
    (by decide) (by decide) (by decide)).2.2 1 (by decide)

/-- C10: Non-emptiness of `months` is assumed, not enforced: an
explicitly supplied empty months set passes construction, and then
every `GetMatch` call - with or without a timezone - fails with the
unhandled `UnboundLocalError` of the never-created month generator. -/
theorem C10_empty_months (ordinals weekdays monthdays :
    Option (List Nat)) (timestr : Option TimeOfDay)
    (hno : ¬(weekdays.isSome ∧ monthdays.isSome)) :
    ∃ spec, SpecificTimeSpecification.init ordinals weekdays (some [])
        monthdays timestr = .ok spec ∧ spec.months = [] ∧
      ∀ start fuel,
        spec.GetMatch start fuel = .error .unboundLocalMonths ∧
        ∀ tz, spec.GetMatchTz tz start fuel =
          .error .unboundLocalMonths := by
  refine ⟨⟨ordinals.getD (List.range' 1 5), weekdays.getD (List.range 7),
    [], monthdays.getD [], timestr.getD ⟨0, 0⟩⟩, ?_, rfl, ?_⟩
  · unfold SpecificTimeSpecification.init
    rw [if_neg hno]
    rfl
  · intro start fuel
    constructor
    · unfold SpecificTimeSpecification.GetMatch
      rw [if_pos rfl]
    · intro tz
      unfold SpecificTimeSpecification.GetMatchTz
      rw [if_pos rfl]

theorem C10_empty_months_witness :
    ∃ spec, SpecificTimeSpecification.init none none (some []) none
        none = .ok spec ∧ spec.months = [] ∧
      ∀ start fuel,
        spec.GetMatch start fuel = .error .unboundLocalMonths ∧
        ∀ tz, spec.GetMatchTz tz start fuel =
          .error .unboundLocalMonths :=
  C10_empty_months none none none none (by decide)

end Groc

